import Mathlib

/-!
# Verification of the Reddit hyperlink network analysis core (src/project.rs)

A shallow embedding of the directed-graph engine of `src/project.rs`:
the `Graph` struct, `degree`, `out_degree_centrality`, `in_degree_centrality`,
`reverse`, `shortest_paths` and `closeness_centrality`, together with proofs
of the specified properties.

Modelling conventions:
* Rust `HashMap`/`HashSet` are modelled as association lists / lists with
  a fixed (insertion) iteration order; the Rust iteration order is
  unspecified, so every order-sensitive statement below is phrased through
  membership, counts or permutations.
* Rust `usize` is `Nat`; `usize` subtraction there only occurs as
  `self.size - 1` and is truncated subtraction.
* Rust `f32` is modelled by `F`: exact rational arithmetic extended with
  `nan` and signed infinities, capturing IEEE division by zero exactly;
  rounding is not modelled (all concrete values appearing in the theorems
  below are exactly representable in `f32`).
* A Rust `expect`/panic is modelled by `Option`, `none` being the panic.
* The `BinaryHeap<Reverse<(String, usize)>>` pops the least `(String, usize)`
  pair in the lexicographic order `Reverse` flips, which for ASCII labels is
  the order `strLt` below; `popMin` models one pop.
-/

/-- Strict lexicographic order on char lists by code point, the order Rust
uses on `String` (UTF-8 byte order coincides with code-point order). -/
def charsLt : List Char → List Char → Bool
  | [], [] => false
  | [], _ :: _ => true
  | _ :: _, [] => false
  | a :: as, b :: bs =>
    if a.toNat < b.toNat then true
    else if a.toNat = b.toNat then charsLt as bs
    else false

/-- Rust `String` order. -/
def strLt (s t : String) : Bool := charsLt s.data t.data

/-- Rust `Ord` on `(String, usize)`: lexicographic, strings first.  This is
the order `BinaryHeap<Reverse<(String, usize)>>` pops minima of. -/
def entryLt (a b : String × Nat) : Bool :=
  strLt a.1 b.1 || (a.1 == b.1 && decide (a.2 < b.2))

/-- One `BinaryHeap::pop` on the modelled queue: remove the least entry in
the `entryLt` order (ties between distinct copies of the same pair are
immaterial).  Returns the popped entry and the remaining queue. -/
def popMin : List (String × Nat) → Option ((String × Nat) × List (String × Nat))
  | [] => none
  | x :: xs =>
    let m := xs.foldl (fun b y => if entryLt y b then y else b) x
    some (m, (x :: xs).erase m)

/-- `HashMap` lookup on an association list (first matching key). -/
def alookup {α : Type} (k : String) : List (String × α) → Option α
  | [] => none
  | (k1, v) :: rest => if k = k1 then some v else alookup k rest

/-- `HashMap::insert`: replace the value at the first matching key,
or append a fresh entry. -/
def ainsert (k : String) (v : Nat) : List (String × Nat) → List (String × Nat)
  | [] => [(k, v)]
  | (k1, v1) :: rest => if k = k1 then (k1, v) :: rest else (k1, v1) :: ainsert k v rest

/-- `get_mut(k).push(x)` on an adjacency map: append `x` to the vector at
key `k`; `none` models the `expect` panic when `k` is absent. -/
def apush (k x : String) : List (String × List String) → Option (List (String × List String))
  | [] => none
  | (k1, l) :: rest =>
    if k = k1 then some ((k1, l ++ [x]) :: rest)
    else (apush k x rest).map (fun r => (k1, l) :: r)

/-- The keys of an association list, in order. -/
def keysOf {α : Type} (m : List (String × α)) : List String := m.map Prod.fst

/-- `values().sum()` of a distance map. -/
def dsum (m : List (String × Nat)) : Nat := (m.map Prod.snd).sum

/-- Model of Rust `f32` values produced by the program: exact rationals
plus `nan` and signed infinities (`inf true` is `+∞`). -/
inductive F where
  | nan : F
  | inf : Bool → F
  | fin : ℚ → F
deriving DecidableEq

/-- IEEE subtraction on the modelled values (exact on finite arguments). -/
def F.sub : F → F → F
  | fin a, fin b => fin (a - b)
  | nan, _ => nan
  | _, nan => nan
  | inf s, fin _ => inf s
  | fin _, inf s => inf (!s)
  | inf s, inf t => if s = t then nan else inf s

/-- IEEE division: finite by zero gives `nan` (0/0) or a signed infinity. -/
def F.div : F → F → F
  | nan, _ => nan
  | _, nan => nan
  | fin a, fin b =>
    if b = 0 then (if a = 0 then nan else inf (decide (0 < a)))
    else fin (a / b)
  | inf s, fin b => if b < 0 then inf (!s) else inf s
  | fin _, inf _ => fin 0
  | inf s, inf t => inf (s == t)

/-- IEEE multiplication on the modelled values. -/
def F.mul : F → F → F
  | nan, _ => nan
  | _, nan => nan
  | fin a, fin b => fin (a * b)
  | inf s, fin b => if b = 0 then nan else if b < 0 then inf (!s) else inf s
  | fin a, inf s => if a = 0 then nan else if a < 0 then inf (!s) else inf s
  | inf s, inf t => inf (s == t)

/-- `partial_cmp` on the modelled `f32`: `none` whenever `nan` is involved. -/
def F.pcmp : F → F → Option Ordering
  | nan, _ => none
  | _, nan => none
  | fin a, fin b => some (if a < b then Ordering.lt else if a = b then Ordering.eq else Ordering.gt)
  | inf s, inf t => some (if s = t then Ordering.eq else if t then Ordering.lt else Ordering.gt)
  | inf s, fin _ => some (if s then Ordering.gt else Ordering.lt)
  | fin _, inf s => some (if s then Ordering.lt else Ordering.gt)

/-- The `pub struct Graph` of `project.rs`: node count, adjacency map
(`HashMap<String, Vec<String>>`, modelled as an association list) and the
node set (`HashSet<String>`, modelled as a list). -/
structure Graph where
  size : Nat
  adjacency_dict : List (String × List String)
  nodes : List String
deriving DecidableEq

/-- The outgoing-arc list of `u`; empty when `u` has no adjacency entry. -/
def Graph.adjOf (g : Graph) (u : String) : List String :=
  (alookup u g.adjacency_dict).getD []

/-- The §3 invariant of the spec, in a decidable bounded form: node list and
adjacency keys are duplicate-free, adjacency keys and the node set coincide,
every destination of an arc is a node, and `size` is the node count. -/
def Graph.invariant (g : Graph) : Prop :=
  g.nodes.Nodup ∧
  (keysOf g.adjacency_dict).Nodup ∧
  (∀ u ∈ g.nodes, u ∈ keysOf g.adjacency_dict) ∧
  (∀ p ∈ g.adjacency_dict, p.1 ∈ g.nodes ∧ ∀ v ∈ p.2, v ∈ g.nodes) ∧
  g.size = g.nodes.length

instance (g : Graph) : Decidable g.invariant := by
  unfold Graph.invariant; infer_instance

/-- `fn degree`: the `(node, out_degree)` pairs, sorted by out-degree
descending (`sort_by_key(Reverse(v.1))`, a stable sort). -/
def Graph.degree (g : Graph) : List (String × Nat) :=
  List.insertionSort (fun a b => b.2 ≤ a.2)
    (g.adjacency_dict.map (fun p => (p.1, p.2.length)))

/-- One normalized degree-centrality score: `d as f32 / (N - 1) as f32`
with the truncated `usize` subtraction `N - 1`. -/
def centScore (N : Nat) (d : Nat) : F :=
  F.div (F.fin (d : ℚ)) (F.fin ((N - 1 : ℕ) : ℚ))

/-- `pub fn out_degree_centrality`: each out-degree divided by
`(self.size - 1)`, in the order `degree` produced. -/
def Graph.out_degree_centrality (g : Graph) : List (String × F) :=
  g.degree.map (fun p => (p.1, centScore g.size p.2))

/-- The inner loop of `reverse`: push `u` onto the reversed adjacency list
of each of its outedges in turn (`none` models the `expect` panic). -/
def pushAllRev (u : String) (outs : List String) (m : List (String × List String)) :
    Option (List (String × List String)) :=
  outs.foldlM (fun acc v => apush v u acc) m

/-- `pub fn reverse`: a fresh graph with the same nodes and size whose
adjacency starts empty and receives `node` pushed onto `outedge`'s list for
every arc `node → outedge`; `none` models the two `expect` panics. -/
def Graph.reverse (g : Graph) : Option Graph :=
  (g.nodes.foldlM
      (fun acc node =>
        (alookup node g.adjacency_dict).bind (fun outs => pushAllRev node outs acc))
      (g.nodes.map (fun n => (n, ([] : List String))))).map
    (fun adj => { size := g.size, adjacency_dict := adj, nodes := g.nodes })

/-- `pub fn in_degree_centrality`: degrees of the reversed graph, divided by
`(self.size - 1)` of the original. -/
def Graph.in_degree_centrality (g : Graph) : Option (List (String × F)) :=
  g.reverse.map (fun r => r.degree.map (fun p => (p.1, centScore g.size p.2)))

/-- One relaxation of `fn shortest_paths`: for outedge `v` of a node popped
with distance `dist`, record `dist + 1` and push `(v, dist + 1)` when `v` is
new or strictly improved; otherwise leave the state unchanged. -/
def relax (dist : Nat) (st : List (String × Nat) × List (String × Nat)) (v : String) :
    List (String × Nat) × List (String × Nat) :=
  match alookup v st.1 with
  | none => (ainsert v (dist + 1) st.1, st.2 ++ [(v, dist + 1)])
  | some d =>
    if dist + 1 < d then (ainsert v (dist + 1) st.1, st.2 ++ [(v, dist + 1)]) else st

/-- The relaxations of all outedges of one popped node, in order. -/
def relaxList (outs : List String) (dist : Nat)
    (st : List (String × Nat) × List (String × Nat)) :
    List (String × Nat) × List (String × Nat) :=
  outs.foldl (relax dist) st

/-- All strings occurring as arc destinations; every key the loop can add to
the distance map lies in this set, which bounds the termination measure. -/
def outUniv (g : Graph) : Finset String :=
  ((g.adjacency_dict.map Prod.snd).flatten).toFinset

/-- Number of potential distance-map keys not recorded yet (termination
measure component). -/
def dmissing (g : Graph) (m : List (String × Nat)) : Nat :=
  (outUniv g \ (keysOf m).toFinset).card

/-- The `while let Some(...) = pq.pop()` loop of `fn shortest_paths`,
instrumented with a trace recording, for each iteration, the popped entry
and the whole queue it was popped from.  `none` models the
`expect("outedges")` panic. -/
def spLoop (g : Graph) (distances : List (String × Nat)) (pq : List (String × Nat))
    (trace : List ((String × Nat) × List (String × Nat))) :
    Option (List (String × Nat) × List ((String × Nat) × List (String × Nat))) :=
  match h : popMin pq with
  | none => some (distances, trace)
  | some (e, pq1) =>
    match hadj : alookup e.1 g.adjacency_dict with
    | none => none
    | some outedges =>
      spLoop g (relaxList outedges e.2 (distances, pq1)).1
        (relaxList outedges e.2 (distances, pq1)).2 (trace ++ [(e, pq)])
termination_by (dmissing g distances, dsum distances, pq.length)
decreasing_by
  have hfold : ∀ (l : List (String × Nat)) (a : String × Nat),
      l.foldl (fun b y => if entryLt y b then y else b) a ∈ a :: l := by
    intro l
    induction l with
    | nil => intro a; simp
    | cons x xs ih =>
      intro a
      have hstep := ih (if entryLt x a then x else a)
      simp only [List.foldl_cons]
      by_cases hc : entryLt x a = true
      · rw [if_pos hc] at hstep ⊢
        rcases List.mem_cons.mp hstep with h1 | h1
        · rw [h1]; simp
        · simp [h1]
      · rw [if_neg hc] at hstep ⊢
        rcases List.mem_cons.mp hstep with h1 | h1
        · rw [h1]; simp
        · simp [h1]
  obtain ⟨x, xs, rfl⟩ : ∃ y ys, pq = y :: ys := by
    cases pq with
    | nil => simp [popMin] at h
    | cons y ys => exact ⟨y, ys, rfl⟩
  have hpq : xs.foldl (fun b y => if entryLt y b then y else b) x = e ∧
      (x :: xs).erase (xs.foldl (fun b y => if entryLt y b then y else b) x) = pq1 := by
    have h' := h
    simp only [popMin, Option.some.injEq, Prod.mk.injEq] at h'
    exact h'
  have hemem : e ∈ x :: xs := by
    rw [← hpq.1]; exact hfold xs x
  have hlen : pq1.length < (x :: xs).length := by
    rw [← hpq.2, hpq.1]
    rw [List.length_erase_of_mem hemem]
    simp
  have hval : ∀ (m : List (String × List String)) (k : String) (l : List String),
      alookup k m = some l → l ∈ m.map Prod.snd := by
    intro m
    induction m with
    | nil => intro k l hl; simp [alookup] at hl
    | cons p rest ih =>
      intro k l hl
      obtain ⟨k1, v1⟩ := p
      by_cases hc : k = k1
      · simp [alookup, hc] at hl
        simp [hl]
      · simp only [alookup, if_neg hc] at hl
        simp [ih k l hl]
  have hvmem : ∀ v ∈ outedges, v ∈ outUniv g := by
    intro v hv
    have hin : outedges ∈ g.adjacency_dict.map Prod.snd :=
      hval g.adjacency_dict e.1 outedges hadj
    unfold outUniv
    rw [List.mem_toFinset, List.mem_flatten]
    exact ⟨outedges, hin, hv⟩
  have hnm : ∀ (k : String) (m : List (String × Nat)), alookup k m = none → k ∉ keysOf m := by
    intro k m
    induction m with
    | nil => intro _; simp [keysOf]
    | cons p rest ih =>
      obtain ⟨k1, v1⟩ := p
      intro hm
      by_cases hc : k = k1
      · simp [alookup, hc] at hm
      · simp only [alookup, if_neg hc] at hm
        simp only [keysOf, List.map_cons, List.mem_cons, not_or]
        exact ⟨hc, ih hm⟩
  have hkeysF : ∀ (k : String) (w : Nat) (m : List (String × Nat)), alookup k m = none →
      keysOf (ainsert k w m) = keysOf m ++ [k] := by
    intro k w m
    induction m with
    | nil => intro _; rfl
    | cons p rest ih =>
      obtain ⟨k1, v1⟩ := p
      intro hm
      by_cases hc : k = k1
      · simp [alookup, hc] at hm
      · simp only [alookup, if_neg hc] at hm
        simp [ainsert, hc, keysOf] at *
        exact ih hm
  have hfresh : ∀ (k : String) (w : Nat) (m : List (String × Nat)),
      k ∈ outUniv g → alookup k m = none →
      dmissing g (ainsert k w m) < dmissing g m := by
    intro k w m hk hal
    unfold dmissing
    rw [hkeysF k w m hal]
    apply Finset.card_lt_card
    have hsub : outUniv g \ (keysOf m ++ [k]).toFinset ⊆ outUniv g \ (keysOf m).toFinset := by
      apply Finset.sdiff_subset_sdiff (Finset.Subset.refl _)
      rw [List.toFinset_append]
      exact Finset.subset_union_left
    rw [Finset.ssubset_iff_of_subset hsub]
    refine ⟨k, ?_, ?_⟩
    · rw [Finset.mem_sdiff, List.mem_toFinset]
      exact ⟨hk, hnm k m hal⟩
    · rw [Finset.mem_sdiff]
      intro hcon
      exact hcon.2 (by simp)
  have hrepl : ∀ (k : String) (w d : Nat) (m : List (String × Nat)), alookup k m = some d →
      keysOf (ainsert k w m) = keysOf m ∧ dsum (ainsert k w m) + d = dsum m + w := by
    intro k w d m
    induction m with
    | nil => intro hm; simp [alookup] at hm
    | cons p rest ih =>
      obtain ⟨k1, v1⟩ := p
      intro hm
      by_cases hc : k = k1
      · simp only [alookup, if_pos hc, Option.some.injEq] at hm
        constructor
        · simp [ainsert, hc, keysOf]
        · simp [ainsert, hc, dsum]
          omega
      · simp only [alookup, if_neg hc] at hm
        have hih := ih hm
        constructor
        · simp [ainsert, hc, keysOf] at *
          exact hih.1
        · simp [ainsert, hc, dsum] at *
          omega
  have step : ∀ (st : List (String × Nat) × List (String × Nat)) (v : String),
      v ∈ outUniv g →
      relax e.2 st v = st ∨
      dmissing g (relax e.2 st v).1 < dmissing g st.1 ∨
      (dmissing g (relax e.2 st v).1 = dmissing g st.1 ∧
        dsum (relax e.2 st v).1 < dsum st.1) := by
    intro st v hv
    cases hal : alookup v st.1 with
    | none =>
      right; left
      have hred : relax e.2 st v = (ainsert v (e.2 + 1) st.1, st.2 ++ [(v, e.2 + 1)]) := by
        simp [relax, hal]
      rw [hred]
      exact hfresh v (e.2 + 1) st.1 hv hal
    | some d =>
      by_cases hlt : e.2 + 1 < d
      · right; right
        have hred : relax e.2 st v = (ainsert v (e.2 + 1) st.1, st.2 ++ [(v, e.2 + 1)]) := by
          simp [relax, hal, hlt]
        rw [hred]
        have hk := hrepl v (e.2 + 1) d st.1 hal
        constructor
        · unfold dmissing
          rw [hk.1]
        · dsimp only
          omega
      · left
        simp [relax, hal, hlt]
  have key : ∀ (outs : List String) (st : List (String × Nat) × List (String × Nat)),
      (∀ v ∈ outs, v ∈ outUniv g) →
      relaxList outs e.2 st = st ∨
      dmissing g (relaxList outs e.2 st).1 < dmissing g st.1 ∨
      (dmissing g (relaxList outs e.2 st).1 = dmissing g st.1 ∧
        dsum (relaxList outs e.2 st).1 < dsum st.1) := by
    intro outs
    induction outs with
    | nil => intro st _; left; rfl
    | cons v vs ih =>
      intro st hin
      have hs := step st v (hin v (by simp))
      have hunfold : relaxList (v :: vs) e.2 st = relaxList vs e.2 (relax e.2 st v) := rfl
      rw [hunfold]
      rcases hs with hs | hs | hs
      · rw [hs]
        exact ih st (fun w hw => hin w (List.mem_cons_of_mem _ hw))
      · rcases ih (relax e.2 st v) (fun w hw => hin w (List.mem_cons_of_mem _ hw)) with
          hr | hr | hr
        · rw [hr]; right; omega
        · right; omega
        · right; omega
      · rcases ih (relax e.2 st v) (fun w hw => hin w (List.mem_cons_of_mem _ hw)) with
          hr | hr | hr
        · rw [hr]; right; omega
        · right; omega
        · right; omega
  rcases key outedges (distances, pq1) hvmem with hkey | hkey | hkey
  · have h1 : (relaxList outedges e.2 (distances, pq1)).1 = distances := by rw [hkey]
    have h2 : (relaxList outedges e.2 (distances, pq1)).2 = pq1 := by rw [hkey]
    rw [h1, h2]
    apply Prod.Lex.right
    apply Prod.Lex.right
    exact hlen
  · exact Prod.Lex.left _ _ hkey
  · rw [hkey.1]
    apply Prod.Lex.right
    exact Prod.Lex.left _ _ hkey.2

/-- `fn shortest_paths`: seed the distance map and queue with `(start, 0)`
and run the loop; the result is the distance map. -/
def Graph.shortest_paths (g : Graph) (start : String) : Option (List (String × Nat)) :=
  (spLoop g [(start, 0)] [(start, 0)] []).map Prod.fst

/-- The pop trace of the same run of `fn shortest_paths`: for each loop
iteration, the popped entry and the queue contents it was popped from. -/
def spTrace (g : Graph) (start : String) :
    Option (List ((String × Nat) × List (String × Nat))) :=
  (spLoop g [(start, 0)] [(start, 0)] []).map Prod.snd

/-- The per-node score of `pub fn closeness_centrality`, exactly as the code
computes it: with `n = shortest_paths.len()`, `S = values().sum()` and
`big_n = graph.size as f32 - 1.0`, the score is
`((n - 1) / (big_n - 1)) * (n / S)` unless `S == 0`, in which case it is 0. -/
def closenessOf (N : Nat) (sp : List (String × Nat)) : F :=
  if dsum sp ≠ 0 then
    F.mul
      (F.div (F.sub (F.fin (sp.length : ℚ)) (F.fin 1))
        (F.sub (F.sub (F.fin (N : ℚ)) (F.fin 1)) (F.fin 1)))
      (F.div (F.fin (sp.length : ℚ)) (F.fin (dsum sp : ℚ)))
  else F.fin 0

/-- `pub fn closeness_centrality`: reverse the graph, score every node of
the reversed graph from its shortest-path map, and sort the pairs by score
descending with `partial_cmp(..).unwrap_or(Equal)`. -/
def Graph.closeness_centrality (g : Graph) : Option (List (String × F)) :=
  g.reverse.bind (fun graph =>
    (graph.nodes.mapM (fun node =>
        (graph.shortest_paths node).map (fun sp => (node, closenessOf graph.size sp)))).map
      (fun cs =>
        List.insertionSort (fun a b => ((F.pcmp b.2 a.2).getD Ordering.eq) ≠ Ordering.gt) cs))

/-- The score formula claim C1 asserts, with the distance map the code
actually uses: `((n - 1) / (N - 1)) * (n / S)` where `N` is the node count,
and 0 when `S = 0`. -/
def claimScoreC1 (N : Nat) (sp : List (String × Nat)) : F :=
  if dsum sp ≠ 0 then
    F.mul
      (F.div (F.sub (F.fin (sp.length : ℚ)) (F.fin 1))
        (F.sub (F.fin (N : ℚ)) (F.fin 1)))
      (F.div (F.fin (sp.length : ℚ)) (F.fin (dsum sp : ℚ)))
  else F.fin 0

/-- Directed walks: `hasWalk g s w n` says there is a walk of `n` arcs from
`s` to `w` along the graph's outgoing arcs.  The minimum such `n` is the
shortest-path distance (a shortest walk never repeats a node, so this agrees
with the minimum over directed paths). -/
inductive hasWalk (g : Graph) (s : String) : String → Nat → Prop where
  | refl : hasWalk g s s 0
  | snoc {u v : String} {n : Nat} : hasWalk g s u n → v ∈ g.adjOf u → hasWalk g s v (n + 1)

/-- Claim C5's queue discipline: every pop in the trace removed an entry of
minimal tentative distance among the entries then in the queue. -/
def popsByDistance (tr : List ((String × Nat) × List (String × Nat))) : Prop :=
  ∀ p ∈ tr, ∀ y ∈ p.2, p.1.2 ≤ y.2

/-- The discipline the code actually implements: every pop removed an entry
minimal in the lexicographic `(name, distance)` order `entryLt`. -/
def popsLexMinimal (tr : List ((String × Nat) × List (String × Nat))) : Prop :=
  ∀ p ∈ tr, ∀ y ∈ p.2, entryLt y p.1 = false

/-- Concrete graph, nodes `a b c`, single arc `a → b` (counterexample input
for the closeness formula). -/
def G1 : Graph :=
  { size := 3, adjacency_dict := [("a", ["b"]), ("b", []), ("c", [])],
    nodes := ["a", "b", "c"] }

/-- The reverse of `G1` as `Graph.reverse` constructs it. -/
def G1r : Graph :=
  { size := 3, adjacency_dict := [("a", []), ("b", ["a"]), ("c", [])],
    nodes := ["a", "b", "c"] }

/-- Concrete graph, nodes `a b c`, arcs `a → b` and `c → b`; node `b` has no
outgoing arcs but two incoming ones. -/
def G2 : Graph :=
  { size := 3, adjacency_dict := [("a", ["b"]), ("b", []), ("c", ["b"])],
    nodes := ["a", "b", "c"] }

/-- The reverse of `G2` as `Graph.reverse` constructs it. -/
def G2r : Graph :=
  { size := 3, adjacency_dict := [("a", []), ("b", ["a", "c"]), ("c", [])],
    nodes := ["a", "b", "c"] }

/-- Concrete one-node graph with no arcs. -/
def Gsingle : Graph :=
  { size := 1, adjacency_dict := [("a", [])], nodes := ["a"] }

/-- The empty graph: zero nodes, zero edges. -/
def Gempty : Graph := { size := 0, adjacency_dict := [], nodes := [] }

/-- Concrete graph, nodes `a b c x`, arcs `c → a`, `c → x`, `a → b`: running
`shortest_paths` from `c` pops `(b, 2)` while `(x, 1)` is still queued. -/
def G5 : Graph :=
  { size := 4,
    adjacency_dict := [("a", ["b"]), ("b", []), ("c", ["a", "x"]), ("x", [])],
    nodes := ["a", "b", "c", "x"] }

/-- Properties of the distance map at loop exit: the start is at distance 0,
every recorded distance is witnessed by a walk, and no arc can improve a
recorded distance (all relaxations are exhausted). -/
def SPFinal (g : Graph) (s : String) (D : List (String × Nat)) : Prop :=
  alookup s D = some 0 ∧
  (∀ w d, alookup w D = some d → hasWalk g s w d) ∧
  (∀ u du, alookup u D = some du → ∀ w ∈ g.adjOf u, ∃ dw, alookup w D = some dw ∧ dw ≤ du + 1)

/-! ## Association-list lemmas -/

theorem alookup_none_iff {α : Type} (k : String) (m : List (String × α)) :
    alookup k m = none ↔ k ∉ keysOf m := by
  induction m with
  | nil => simp [alookup, keysOf]
  | cons p rest ih =>
    obtain ⟨k1, v1⟩ := p
    by_cases hc : k = k1
    · simp [alookup, hc, keysOf]
    · simp only [alookup, if_neg hc, keysOf, List.map_cons, List.mem_cons, not_or]
      constructor
      · intro h; exact ⟨hc, ih.mp h⟩
      · intro h; exact ih.mpr h.2

theorem alookup_isSome_iff {α : Type} (k : String) (m : List (String × α)) :
    (alookup k m).isSome ↔ k ∈ keysOf m := by
  rcases h : alookup k m with _ | v
  · simp [Option.isSome]
    exact (alookup_none_iff k m).mp h
  · simp [Option.isSome]
    by_contra hk
    rw [(alookup_none_iff k m).mpr hk] at h
    exact Option.noConfusion h

theorem alookup_mem {α : Type} {k : String} {v : α} {m : List (String × α)}
    (h : alookup k m = some v) : (k, v) ∈ m := by
  induction m with
  | nil => simp [alookup] at h
  | cons p rest ih =>
    obtain ⟨k1, v1⟩ := p
    by_cases hc : k = k1
    · simp only [alookup, if_pos hc, Option.some.injEq] at h
      simp [hc, h]
    · simp only [alookup, if_neg hc] at h
      exact List.mem_cons_of_mem _ (ih h)

theorem alookup_values {α : Type} {k : String} {l : α} {m : List (String × α)}
    (h : alookup k m = some l) : l ∈ m.map Prod.snd := by
  have := alookup_mem h
  exact List.mem_map.mpr ⟨(k, l), this, rfl⟩

theorem alookup_ainsert_self (k : String) (v : Nat) (m : List (String × Nat)) :
    alookup k (ainsert k v m) = some v := by
  induction m with
  | nil => simp [ainsert, alookup]
  | cons p rest ih =>
    obtain ⟨k1, v1⟩ := p
    by_cases hc : k = k1
    · simp [ainsert, hc, alookup]
    · simp [ainsert, hc, alookup, ih]

theorem alookup_ainsert_ne {k j : String} (h : j ≠ k) (v : Nat) (m : List (String × Nat)) :
    alookup j (ainsert k v m) = alookup j m := by
  induction m with
  | nil => simp [ainsert, alookup, h]
  | cons p rest ih =>
    obtain ⟨k1, v1⟩ := p
    by_cases hc : k = k1
    · subst hc
      simp [ainsert, alookup, h, ih]
    · by_cases hj : j = k1
      · simp [ainsert, hc, alookup, hj]
      · simp [ainsert, hc, alookup, hj, ih]

theorem keysOf_ainsert_fresh {k : String} (v : Nat) {m : List (String × Nat)}
    (h : alookup k m = none) : keysOf (ainsert k v m) = keysOf m ++ [k] := by
  induction m with
  | nil => rfl
  | cons p rest ih =>
    obtain ⟨k1, v1⟩ := p
    by_cases hc : k = k1
    · simp [alookup, hc] at h
    · simp only [alookup, if_neg hc] at h
      simp [ainsert, hc, keysOf] at *
      exact ih h

theorem keysOf_ainsert_found {k : String} (v : Nat) {d : Nat} {m : List (String × Nat)}
    (h : alookup k m = some d) : keysOf (ainsert k v m) = keysOf m := by
  induction m with
  | nil => simp [alookup] at h
  | cons p rest ih =>
    obtain ⟨k1, v1⟩ := p
    by_cases hc : k = k1
    · simp [ainsert, hc, keysOf]
    · simp only [alookup, if_neg hc] at h
      simp [ainsert, hc, keysOf] at *
      exact ih h

theorem dsum_ainsert {k : String} (v : Nat) {d : Nat} {m : List (String × Nat)}
    (h : alookup k m = some d) : dsum (ainsert k v m) + d = dsum m + v := by
  induction m with
  | nil => simp [alookup] at h
  | cons p rest ih =>
    obtain ⟨k1, v1⟩ := p
    by_cases hc : k = k1
    · simp only [alookup, if_pos hc, Option.some.injEq] at h
      simp [ainsert, hc, dsum]
      omega
    · simp only [alookup, if_neg hc] at h
      have := ih h
      simp [ainsert, hc, dsum] at *
      omega

/-! ## Order lemmas for the queue discipline -/

theorem charsLt_irrefl (l : List Char) : charsLt l l = false := by
  induction l with
  | nil => rfl
  | cons a as ih => simp [charsLt, ih]

theorem charsLt_cons (x y : Char) (xs ys : List Char) :
    charsLt (x :: xs) (y :: ys) = true ↔
      x.toNat < y.toNat ∨ (x.toNat = y.toNat ∧ charsLt xs ys = true) := by
  by_cases h1 : x.toNat < y.toNat
  · simp [charsLt, h1]
  · by_cases h2 : x.toNat = y.toNat
    · simp [charsLt, h1, h2]
    · simp [charsLt, h1, h2]

theorem charsLt_trans {a b c : List Char} (h1 : charsLt a b = true)
    (h2 : charsLt b c = true) : charsLt a c = true := by
  induction a generalizing b c with
  | nil =>
    cases c with
    | nil =>
      cases b with
      | nil => exact h1
      | cons y ys => simp [charsLt] at h2
    | cons z zs => simp [charsLt]
  | cons x xs ih =>
    cases b with
    | nil => simp [charsLt] at h1
    | cons y ys =>
      cases c with
      | nil => simp [charsLt] at h2
      | cons z zs =>
        rw [charsLt_cons] at h1 h2 ⊢
        rcases h1 with h1 | ⟨h1e, h1r⟩
        · rcases h2 with h2 | ⟨h2e, h2r⟩
          · left; omega
          · left; omega
        · rcases h2 with h2 | ⟨h2e, h2r⟩
          · left; omega
          · right; exact ⟨by omega, ih h1r h2r⟩

theorem charsLt_total (a b : List Char) :
    charsLt a b = true ∨ a = b ∨ charsLt b a = true := by
  induction a generalizing b with
  | nil =>
    cases b with
    | nil => right; left; rfl
    | cons y ys => left; simp [charsLt]
  | cons x xs ih =>
    cases b with
    | nil => right; right; simp [charsLt]
    | cons y ys =>
      by_cases hxy : x.toNat < y.toNat
      · left; rw [charsLt_cons]; left; exact hxy
      · by_cases hyx : y.toNat < x.toNat
        · right; right; rw [charsLt_cons]; left; exact hyx
        · have hxy2 : x.toNat = y.toNat := by omega
          have hx : x = y := by
            have hval : x.val = y.val := UInt32.ext hxy2
            exact Char.ext hval
          subst hx
          rcases ih ys with h | h | h
          · left; rw [charsLt_cons]; right; exact ⟨rfl, h⟩
          · right; left; rw [h]
          · right; right; rw [charsLt_cons]; right; exact ⟨rfl, h⟩

theorem strLt_irrefl (s : String) : strLt s s = false := charsLt_irrefl s.data

theorem strLt_trans {s t u : String} (h1 : strLt s t = true) (h2 : strLt t u = true) :
    strLt s u = true := charsLt_trans h1 h2

theorem strLt_total (s t : String) : strLt s t = true ∨ s = t ∨ strLt t s = true := by
  rcases charsLt_total s.data t.data with h | h | h
  · left; exact h
  · right; left
    cases s with
    | mk d1 =>
      cases t with
      | mk d2 => simp at h; rw [h]
  · right; right; exact h

theorem entryLt_irrefl (a : String × Nat) : entryLt a a = false := by
  simp [entryLt, strLt_irrefl]

theorem entryLt_trans {a b c : String × Nat} (h1 : entryLt a b = true)
    (h2 : entryLt b c = true) : entryLt a c = true := by
  simp only [entryLt, Bool.or_eq_true, Bool.and_eq_true, beq_iff_eq, decide_eq_true_eq] at h1 h2 ⊢
  rcases h1 with h1 | ⟨h1e, h1n⟩
  · rcases h2 with h2 | ⟨h2e, h2n⟩
    · left; exact strLt_trans h1 h2
    · left; rw [← h2e]; exact h1
  · rcases h2 with h2 | ⟨h2e, h2n⟩
    · left; rw [h1e]; exact h2
    · right; exact ⟨h1e.trans h2e, Nat.lt_trans h1n h2n⟩

theorem entryLt_total (a b : String × Nat) :
    entryLt a b = true ∨ a = b ∨ entryLt b a = true := by
  obtain ⟨s1, n1⟩ := a
  obtain ⟨s2, n2⟩ := b
  rcases strLt_total s1 s2 with h | h | h
  · left; simp [entryLt, h]
  · subst h
    rcases Nat.lt_trichotomy n1 n2 with hn | hn | hn
    · left; simp [entryLt, hn]
    · right; left; rw [hn]
    · right; right; simp [entryLt, hn]
  · right; right; simp [entryLt, h]

/-! ## popMin lemmas -/

theorem foldlMin_mem (l : List (String × Nat)) (a : String × Nat) :
    l.foldl (fun b y => if entryLt y b then y else b) a ∈ a :: l := by
  induction l generalizing a with
  | nil => simp
  | cons x xs ih =>
    have hstep := ih (if entryLt x a then x else a)
    simp only [List.foldl_cons]
    by_cases hc : entryLt x a = true
    · rw [if_pos hc] at hstep ⊢
      rcases List.mem_cons.mp hstep with h1 | h1
      · rw [h1]; simp
      · simp [h1]
    · rw [if_neg hc] at hstep ⊢
      rcases List.mem_cons.mp hstep with h1 | h1
      · rw [h1]; simp
      · simp [h1]

theorem foldlMin_min (l : List (String × Nat)) (a : String × Nat) :
    ∀ y ∈ a :: l, entryLt y (l.foldl (fun b y => if entryLt y b then y else b) a) = false := by
  induction l generalizing a with
  | nil =>
    intro y hy
    simp at hy
    subst hy
    exact entryLt_irrefl y
  | cons x xs ih =>
    intro y hy
    simp only [List.foldl_cons]
    by_cases hc : entryLt x a = true
    · rw [if_pos hc]
      rcases List.mem_cons.mp hy with h1 | h1
      · subst h1
        by_contra hcon
        rw [Bool.not_eq_false] at hcon
        have htr := entryLt_trans hc hcon
        have hmin := ih x x (List.mem_cons_self x xs)
        exact absurd htr (by simp [hmin])
      · exact ih x y h1
    · rw [if_neg hc]
      rcases List.mem_cons.mp hy with h1 | h1
      · subst h1
        exact ih y y (List.mem_cons_self y xs)
      · rcases List.mem_cons.mp h1 with h2 | h2
        · subst h2
          by_contra hcon
          rw [Bool.not_eq_false] at hcon
          rcases entryLt_total y a with ht | ht | ht
          · exact hc ht
          · subst ht
            have hmin := ih y y (List.mem_cons_self y xs)
            exact absurd hcon (by simp [hmin])
          · have htr := entryLt_trans ht hcon
            have hmin := ih a a (List.mem_cons_self a xs)
            exact absurd htr (by simp [hmin])
        · exact ih a y (List.mem_cons_of_mem a h2)

theorem popMin_none_iff (pq : List (String × Nat)) : popMin pq = none ↔ pq = [] := by
  cases pq with
  | nil => simp [popMin]
  | cons x xs => simp [popMin]

theorem popMin_eq {pq : List (String × Nat)} {e : String × Nat} {r : List (String × Nat)}
    (h : popMin pq = some (e, r)) : e ∈ pq ∧ r = pq.erase e ∧ (∀ y ∈ pq, entryLt y e = false) := by
  cases pq with
  | nil => simp [popMin] at h
  | cons x xs =>
    have h' : (xs.foldl (fun b y => if entryLt y b then y else b) x,
        (x :: xs).erase (xs.foldl (fun b y => if entryLt y b then y else b) x)) = (e, r) := by
      simpa [popMin] using h
    injection h' with h1 h2
    subst h1
    subst h2
    exact ⟨foldlMin_mem xs x, rfl, fun y hy => foldlMin_min xs x y hy⟩

theorem popMin_length {pq : List (String × Nat)} {e : String × Nat}
    {r : List (String × Nat)} (h : popMin pq = some (e, r)) : r.length + 1 = pq.length := by
  obtain ⟨hmem, herase, _⟩ := popMin_eq h
  rw [herase, List.length_erase_of_mem hmem]
  have : 1 ≤ pq.length := List.length_pos.mpr (List.ne_nil_of_mem hmem)
  omega

theorem popMin_sub {pq : List (String × Nat)} {e : String × Nat}
    {r : List (String × Nat)} (h : popMin pq = some (e, r)) : ∀ y ∈ r, y ∈ pq := by
  obtain ⟨hmem, herase, _⟩ := popMin_eq h
  intro y hy
  rw [herase] at hy
  exact List.mem_of_mem_erase hy

theorem popMin_mem_of_ne {pq : List (String × Nat)} {e : String × Nat}
    {r : List (String × Nat)} (h : popMin pq = some (e, r)) {y : String × Nat}
    (hy : y ∈ pq) (hne : y ≠ e) : y ∈ r := by
  obtain ⟨hmem, herase, _⟩ := popMin_eq h
  rw [herase]
  exact (List.mem_erase_of_ne hne).mpr hy

/-! ## Walk lemmas -/

theorem invariant_lookup {g : Graph} (hg : g.invariant) {u : String} (hu : u ∈ g.nodes) :
    ∃ l, alookup u g.adjacency_dict = some l := by
  have hk : u ∈ keysOf g.adjacency_dict := hg.2.2.1 u hu
  have := (alookup_isSome_iff u g.adjacency_dict).mpr hk
  rcases halo : alookup u g.adjacency_dict with _ | l
  · rw [halo] at this; simp [Option.isSome] at this
  · exact ⟨l, rfl⟩

theorem invariant_closed {g : Graph} (hg : g.invariant) {u : String} {l : List String}
    (h : alookup u g.adjacency_dict = some l) : u ∈ g.nodes ∧ ∀ v ∈ l, v ∈ g.nodes := by
  have hmem := alookup_mem h
  exact hg.2.2.2.1 (u, l) hmem

theorem adjOf_mem_nodes {g : Graph} (hg : g.invariant) {u v : String}
    (hu : u ∈ g.nodes) (hv : v ∈ g.adjOf u) : v ∈ g.nodes := by
  unfold Graph.adjOf at hv
  rcases halo : alookup u g.adjacency_dict with _ | l
  · rw [halo] at hv; simp at hv
  · rw [halo] at hv
    simp at hv
    exact (invariant_closed hg halo).2 v hv

theorem hasWalk_mem_nodes {g : Graph} {s w : String} {n : Nat} (hg : g.invariant)
    (hs : s ∈ g.nodes) (h : hasWalk g s w n) : w ∈ g.nodes := by
  induction h with
  | refl => exact hs
  | snoc hw hv ih => exact adjOf_mem_nodes hg ih hv

/-! ## Relaxation lemmas -/

theorem relax_cases (dist : Nat) (st : List (String × Nat) × List (String × Nat)) (v : String) :
    (alookup v st.1 = none ∧
      relax dist st v = (ainsert v (dist + 1) st.1, st.2 ++ [(v, dist + 1)])) ∨
    (∃ d, alookup v st.1 = some d ∧ dist + 1 < d ∧
      relax dist st v = (ainsert v (dist + 1) st.1, st.2 ++ [(v, dist + 1)])) ∨
    (∃ d, alookup v st.1 = some d ∧ ¬ dist + 1 < d ∧ relax dist st v = st) := by
  rcases hal : alookup v st.1 with _ | d
  · left; exact ⟨rfl, by simp [relax, hal]⟩
  · by_cases hlt : dist + 1 < d
    · right; left; exact ⟨d, rfl, hlt, by simp [relax, hal, hlt]⟩
    · right; right; exact ⟨d, rfl, hlt, by simp [relax, hal, hlt]⟩

theorem relax_pres_insert (g : Graph) (s upop : String) (dist : Nat)
    (hw : hasWalk g s upop dist)
    (st : List (String × Nat) × List (String × Nat)) (v : String) (hv : v ∈ g.adjOf upop)
    (hgood : ∀ dOld, alookup v st.1 = some dOld → dist + 1 < dOld)
    (hstab : ∃ rec, alookup upop st.1 = some rec ∧ rec ≤ dist)
    (h0 : alookup s st.1 = some 0)
    (h1 : ∀ w d, alookup w st.1 = some d → hasWalk g s w d)
    (h2 : ∀ e ∈ st.2, ∃ d, alookup e.1 st.1 = some d ∧ d ≤ e.2)
    (h3 : ∀ e ∈ st.2, hasWalk g s e.1 e.2)
    (h4 : ∀ u du, alookup u st.1 = some du → (u = upop ∧ du = dist) ∨ (u, du) ∈ st.2 ∨
      ∀ w ∈ g.adjOf u, ∃ dw, alookup w st.1 = some dw ∧ dw ≤ du + 1) :
    (∃ rec, alookup upop (ainsert v (dist + 1) st.1) = some rec ∧ rec ≤ dist) ∧
    alookup s (ainsert v (dist + 1) st.1) = some 0 ∧
    (∀ w d, alookup w (ainsert v (dist + 1) st.1) = some d → hasWalk g s w d) ∧
    (∀ e ∈ st.2 ++ [(v, dist + 1)],
      ∃ d, alookup e.1 (ainsert v (dist + 1) st.1) = some d ∧ d ≤ e.2) ∧
    (∀ e ∈ st.2 ++ [(v, dist + 1)], hasWalk g s e.1 e.2) ∧
    (∀ u du, alookup u (ainsert v (dist + 1) st.1) = some du →
      (u = upop ∧ du = dist) ∨ (u, du) ∈ st.2 ++ [(v, dist + 1)] ∨
      ∀ w ∈ g.adjOf u, ∃ dw, alookup w (ainsert v (dist + 1) st.1) = some dw ∧ dw ≤ du + 1) ∧
    (∀ w d, alookup w st.1 = some d →
      ∃ d2, alookup w (ainsert v (dist + 1) st.1) = some d2 ∧ d2 ≤ d) ∧
    (∃ dv, alookup v (ainsert v (dist + 1) st.1) = some dv ∧ dv ≤ dist + 1) := by
  obtain ⟨rec, hrec, hrecle⟩ := hstab
  have hupv : upop ≠ v := by
    intro he
    subst he
    have := hgood rec hrec
    omega
  have hsv : s ≠ v := by
    intro he
    subst he
    have := hgood 0 h0
    omega
  refine ⟨⟨rec, ?_, hrecle⟩, ?_, ?_, ?_, ?_, ?_, ?_, ?_⟩
  · rw [alookup_ainsert_ne hupv]; exact hrec
  · rw [alookup_ainsert_ne hsv]; exact h0
  · intro w d hwd
    by_cases hwv : w = v
    · subst hwv
      rw [alookup_ainsert_self] at hwd
      cases hwd
      exact hasWalk.snoc hw hv
    · rw [alookup_ainsert_ne hwv] at hwd
      exact h1 w d hwd
  · intro e he
    rcases List.mem_append.mp he with he | he
    · obtain ⟨dOld, hOld, hle⟩ := h2 e he
      by_cases hev : e.1 = v
      · rw [hev] at hOld
        have := hgood dOld hOld
        refine ⟨dist + 1, ?_, by omega⟩
        rw [hev, alookup_ainsert_self]
      · rw [← alookup_ainsert_ne hev (dist + 1) st.1] at hOld
        exact ⟨dOld, hOld, hle⟩
    · simp at he
      rw [he]
      exact ⟨dist + 1, by simp [alookup_ainsert_self], le_refl _⟩
  · intro e he
    rcases List.mem_append.mp he with he | he
    · exact h3 e he
    · simp at he
      rw [he]
      exact hasWalk.snoc hw hv
  · intro u du hu
    by_cases huv : u = v
    · subst huv
      rw [alookup_ainsert_self] at hu
      cases hu
      right; left
      simp
    · rw [alookup_ainsert_ne huv] at hu
      rcases h4 u du hu with hx | hmem | hbd
      · left; exact hx
      · right; left; exact List.mem_append_left _ hmem
      · right; right
        intro w hwadj
        obtain ⟨dw, hdw, hdwle⟩ := hbd w hwadj
        by_cases hwv : w = v
        · subst hwv
          have := hgood dw hdw
          exact ⟨dist + 1, alookup_ainsert_self w (dist + 1) st.1, by omega⟩
        · exact ⟨dw, by rw [alookup_ainsert_ne hwv]; exact hdw, hdwle⟩
  · intro w d hwd
    by_cases hwv : w = v
    · subst hwv
      have := hgood d hwd
      exact ⟨dist + 1, alookup_ainsert_self w (dist + 1) st.1, by omega⟩
    · exact ⟨d, by rw [alookup_ainsert_ne hwv]; exact hwd, le_refl d⟩
  · exact ⟨dist + 1, alookup_ainsert_self v (dist + 1) st.1, le_refl _⟩

theorem relax_pres (g : Graph) (s upop : String) (dist : Nat)
    (hw : hasWalk g s upop dist)
    (st : List (String × Nat) × List (String × Nat)) (v : String) (hv : v ∈ g.adjOf upop)
    (hstab : ∃ rec, alookup upop st.1 = some rec ∧ rec ≤ dist)
    (h0 : alookup s st.1 = some 0)
    (h1 : ∀ w d, alookup w st.1 = some d → hasWalk g s w d)
    (h2 : ∀ e ∈ st.2, ∃ d, alookup e.1 st.1 = some d ∧ d ≤ e.2)
    (h3 : ∀ e ∈ st.2, hasWalk g s e.1 e.2)
    (h4 : ∀ u du, alookup u st.1 = some du → (u = upop ∧ du = dist) ∨ (u, du) ∈ st.2 ∨
      ∀ w ∈ g.adjOf u, ∃ dw, alookup w st.1 = some dw ∧ dw ≤ du + 1) :
    (∃ rec, alookup upop (relax dist st v).1 = some rec ∧ rec ≤ dist) ∧
    alookup s (relax dist st v).1 = some 0 ∧
    (∀ w d, alookup w (relax dist st v).1 = some d → hasWalk g s w d) ∧
    (∀ e ∈ (relax dist st v).2, ∃ d, alookup e.1 (relax dist st v).1 = some d ∧ d ≤ e.2) ∧
    (∀ e ∈ (relax dist st v).2, hasWalk g s e.1 e.2) ∧
    (∀ u du, alookup u (relax dist st v).1 = some du →
      (u = upop ∧ du = dist) ∨ (u, du) ∈ (relax dist st v).2 ∨
      ∀ w ∈ g.adjOf u, ∃ dw, alookup w (relax dist st v).1 = some dw ∧ dw ≤ du + 1) ∧
    (∀ w d, alookup w st.1 = some d →
      ∃ d2, alookup w (relax dist st v).1 = some d2 ∧ d2 ≤ d) ∧
    (∃ dv, alookup v (relax dist st v).1 = some dv ∧ dv ≤ dist + 1) := by
  rcases relax_cases dist st v with ⟨hal, heq⟩ | ⟨d, hal, hlt, heq⟩ | ⟨d, hal, hlt, heq⟩
  · rw [heq]
    exact relax_pres_insert g s upop dist hw st v hv
      (fun dOld h => by rw [hal] at h; exact Option.noConfusion h) hstab h0 h1 h2 h3 h4
  · rw [heq]
    exact relax_pres_insert g s upop dist hw st v hv
      (fun dOld h => by rw [hal] at h; cases h; exact hlt) hstab h0 h1 h2 h3 h4
  · rw [heq]
    exact ⟨hstab, h0, h1, h2, h3, h4,
      fun w dd hwd => ⟨dd, hwd, le_refl dd⟩, ⟨d, hal, by omega⟩⟩

theorem relaxList_pres (g : Graph) (s upop : String) (dist : Nat)
    (hw : hasWalk g s upop dist) :
    ∀ (outs : List String) (st : List (String × Nat) × List (String × Nat)),
    (∀ v ∈ outs, v ∈ g.adjOf upop) →
    (∃ rec, alookup upop st.1 = some rec ∧ rec ≤ dist) →
    alookup s st.1 = some 0 →
    (∀ w d, alookup w st.1 = some d → hasWalk g s w d) →
    (∀ e ∈ st.2, ∃ d, alookup e.1 st.1 = some d ∧ d ≤ e.2) →
    (∀ e ∈ st.2, hasWalk g s e.1 e.2) →
    (∀ u du, alookup u st.1 = some du → (u = upop ∧ du = dist) ∨ (u, du) ∈ st.2 ∨
      ∀ w ∈ g.adjOf u, ∃ dw, alookup w st.1 = some dw ∧ dw ≤ du + 1) →
    alookup s (relaxList outs dist st).1 = some 0 ∧
    (∀ w d, alookup w (relaxList outs dist st).1 = some d → hasWalk g s w d) ∧
    (∀ e ∈ (relaxList outs dist st).2,
      ∃ d, alookup e.1 (relaxList outs dist st).1 = some d ∧ d ≤ e.2) ∧
    (∀ e ∈ (relaxList outs dist st).2, hasWalk g s e.1 e.2) ∧
    (∀ u du, alookup u (relaxList outs dist st).1 = some du →
      (u = upop ∧ du = dist) ∨ (u, du) ∈ (relaxList outs dist st).2 ∨
      ∀ w ∈ g.adjOf u, ∃ dw, alookup w (relaxList outs dist st).1 = some dw ∧ dw ≤ du + 1) ∧
    (∀ w d, alookup w st.1 = some d →
      ∃ d2, alookup w (relaxList outs dist st).1 = some d2 ∧ d2 ≤ d) ∧
    (∀ v ∈ outs, ∃ dv, alookup v (relaxList outs dist st).1 = some dv ∧ dv ≤ dist + 1) := by
  intro outs
  induction outs with
  | nil =>
    intro st houts hstab h0 h1 h2 h3 h4
    exact ⟨h0, h1, h2, h3, h4, fun w d hwd => ⟨d, hwd, le_refl d⟩, by simp⟩
  | cons v vs ih =>
    intro st houts hstab h0 h1 h2 h3 h4
    have hv : v ∈ g.adjOf upop := houts v (by simp)
    obtain ⟨s1, s2, s3, s4, s5, s6, s7, s8⟩ :=
      relax_pres g s upop dist hw st v hv hstab h0 h1 h2 h3 h4
    have hstep : relaxList (v :: vs) dist st = relaxList vs dist (relax dist st v) := rfl
    rw [hstep]
    obtain ⟨r1, r2, r3, r4, r5, r6, r7⟩ :=
      ih (relax dist st v) (fun w hwmem => houts w (List.mem_cons_of_mem v hwmem))
        s1 s2 s3 s4 s5 s6
    refine ⟨r1, r2, r3, r4, r5, ?_, ?_⟩
    · intro w d hwd
      obtain ⟨d2, hd2, hd2le⟩ := s7 w d hwd
      obtain ⟨d3, hd3, hd3le⟩ := r6 w d2 hd2
      exact ⟨d3, hd3, le_trans hd3le hd2le⟩
    · intro w hwmem
      rcases List.mem_cons.mp hwmem with hwv | hwv
      · subst hwv
        obtain ⟨dv, hdv, hdvle⟩ := s8
        obtain ⟨d3, hd3, hd3le⟩ := r6 w dv hdv
        exact ⟨d3, hd3, le_trans hd3le hdvle⟩
      · exact r7 w hwv

/-! ## The shortest-path loop is sound and complete -/

theorem spLoop_sound (g : Graph) (s : String) (hg : g.invariant) (hs : s ∈ g.nodes) :
    ∀ dm pq tr,
    alookup s dm = some 0 →
    (∀ w d, alookup w dm = some d → hasWalk g s w d) →
    (∀ e ∈ pq, ∃ d, alookup e.1 dm = some d ∧ d ≤ e.2) →
    (∀ e ∈ pq, hasWalk g s e.1 e.2) →
    (∀ u du, alookup u dm = some du → (u, du) ∈ pq ∨
      ∀ w ∈ g.adjOf u, ∃ dw, alookup w dm = some dw ∧ dw ≤ du + 1) →
    ∃ D tr2, spLoop g dm pq tr = some (D, tr2) ∧ SPFinal g s D := by
  intro dm pq tr
  induction dm, pq, tr using spLoop.induct g with
  | case1 dm pq tr hpop =>
    intro h0 h1 h2 h3 h4
    have hpq : pq = [] := (popMin_none_iff pq).mp hpop
    refine ⟨dm, tr, ?_, h0, h1, ?_⟩
    · rw [spLoop.eq_def, hpop]
    · intro u du hu
      rcases h4 u du hu with hmem | hbd
      · rw [hpq] at hmem
        simp at hmem
      · exact hbd
  | case2 dm pq tr e pq1 hpop hadj =>
    intro h0 h1 h2 h3 h4
    exfalso
    obtain ⟨hemem, _, _⟩ := popMin_eq hpop
    obtain ⟨rec, hrec, _⟩ := h2 e hemem
    have hwalk := h1 e.1 rec hrec
    have hnode := hasWalk_mem_nodes hg hs hwalk
    obtain ⟨l, hl⟩ := invariant_lookup hg hnode
    rw [hl] at hadj
    exact Option.noConfusion hadj
  | case3 dm pq tr e pq1 hpop outedges hadj ih =>
    intro h0 h1 h2 h3 h4
    obtain ⟨hemem, herase, hemin⟩ := popMin_eq hpop
    obtain ⟨rec, hrec, hrecle⟩ := h2 e hemem
    have hw : hasWalk g s e.1 e.2 := h3 e hemem
    have hadjOf : g.adjOf e.1 = outedges := by
      unfold Graph.adjOf
      rw [hadj]
      rfl
    have h2s : ∀ y ∈ pq1, ∃ d, alookup y.1 dm = some d ∧ d ≤ y.2 :=
      fun y hy => h2 y (popMin_sub hpop y hy)
    have h3s : ∀ y ∈ pq1, hasWalk g s y.1 y.2 :=
      fun y hy => h3 y (popMin_sub hpop y hy)
    have h4s : ∀ u du, alookup u dm = some du → (u = e.1 ∧ du = e.2) ∨ (u, du) ∈ pq1 ∨
        ∀ w ∈ g.adjOf u, ∃ dw, alookup w dm = some dw ∧ dw ≤ du + 1 := by
      intro u du hu
      rcases h4 u du hu with hmem | hbd
      · by_cases hue : (u, du) = e
        · left
          exact ⟨congrArg Prod.fst hue, congrArg Prod.snd hue⟩
        · right; left
          exact popMin_mem_of_ne hpop hmem hue
      · right; right
        exact hbd
    obtain ⟨r1, r2, r3, r4, r5, r6, r7⟩ :=
      relaxList_pres g s e.1 e.2 hw outedges (dm, pq1)
        (fun v hv => by rw [hadjOf]; exact hv) ⟨rec, hrec, hrecle⟩ h0 h1 h2s h3s h4s
    have h4f : ∀ u du, alookup u (relaxList outedges e.2 (dm, pq1)).1 = some du →
        (u, du) ∈ (relaxList outedges e.2 (dm, pq1)).2 ∨
        ∀ w ∈ g.adjOf u,
          ∃ dw, alookup w (relaxList outedges e.2 (dm, pq1)).1 = some dw ∧ dw ≤ du + 1 := by
      intro u du hu
      rcases r5 u du hu with ⟨hux, hdux⟩ | hmem | hbd
      · right
        subst hux
        subst hdux
        intro w hwadj
        rw [hadjOf] at hwadj
        exact r7 w hwadj
      · left; exact hmem
      · right; exact hbd
    obtain ⟨D, tr2, hrun, hfin⟩ := ih r1 r2 r3 r4 h4f
    refine ⟨D, tr2, ?_, hfin⟩
    rw [spLoop.eq_def]
    split
    · next hx =>
      rw [hx] at hpop
      exact Option.noConfusion hpop
    · next e2 pq2 hx =>
      rw [hx] at hpop
      injection hpop with hpair
      injection hpair with he hq
      subst he
      subst hq
      split
      · next hx2 =>
        rw [hx2] at hadj
        exact Option.noConfusion hadj
      · next outs2 hx2 =>
        rw [hx2] at hadj
        injection hadj with ho
        subst ho
        exact hrun

theorem shortest_paths_final (g : Graph) (s : String) (hg : g.invariant) (hs : s ∈ g.nodes) :
    ∃ D, g.shortest_paths s = some D ∧ SPFinal g s D := by
  have h0 : alookup s [(s, (0 : Nat))] = some 0 := by simp [alookup]
  have h1 : ∀ w d, alookup w [(s, (0 : Nat))] = some d → hasWalk g s w d := by
    intro w d hwd
    by_cases hws : w = s
    · subst hws
      simp [alookup] at hwd
      rw [← hwd]
      exact hasWalk.refl
    · simp [alookup, hws] at hwd
  have h2 : ∀ e ∈ [((s : String), (0 : Nat))], ∃ d, alookup e.1 [(s, (0 : Nat))] = some d ∧ d ≤ e.2 := by
    intro e he
    simp at he
    rw [he]
    exact ⟨0, by simp [alookup], le_refl 0⟩
  have h3 : ∀ e ∈ [((s : String), (0 : Nat))], hasWalk g s e.1 e.2 := by
    intro e he
    simp at he
    rw [he]
    exact hasWalk.refl
  have h4 : ∀ u du, alookup u [(s, (0 : Nat))] = some du → (u, du) ∈ [((s : String), (0 : Nat))] ∨
      ∀ w ∈ g.adjOf u, ∃ dw, alookup w [(s, (0 : Nat))] = some dw ∧ dw ≤ du + 1 := by
    intro u du hu
    by_cases hus : u = s
    · subst hus
      simp [alookup] at hu
      rw [← hu]
      left
      simp
    · simp [alookup, hus] at hu
  obtain ⟨D, tr2, hrun, hfin⟩ := spLoop_sound g s hg hs [(s, 0)] [(s, 0)] [] h0 h1 h2 h3 h4
  refine ⟨D, ?_, hfin⟩
  unfold Graph.shortest_paths
  rw [hrun]
  rfl

theorem SPFinal_upper {g : Graph} {s : String} {D : List (String × Nat)}
    (hf : SPFinal g s D) : ∀ w k, hasWalk g s w k → ∃ d, alookup w D = some d ∧ d ≤ k := by
  intro w k hwalk
  induction hwalk with
  | refl => exact ⟨0, hf.1, le_refl 0⟩
  | snoc hprev hadj ih =>
    obtain ⟨du, hdu, hdule⟩ := ih
    obtain ⟨dw, hdw, hdwle⟩ := hf.2.2 _ du hdu _ hadj
    exact ⟨dw, hdw, by omega⟩

theorem shortest_paths_correct (g : Graph) (s : String) (hg : g.invariant) (hs : s ∈ g.nodes) :
    ∃ D, g.shortest_paths s = some D ∧
      alookup s D = some 0 ∧
      (∀ w d, alookup w D = some d ↔ hasWalk g s w d ∧ ∀ k, hasWalk g s w k → d ≤ k) ∧
      (∀ w, (∀ k, ¬ hasWalk g s w k) → alookup w D = none) := by
  obtain ⟨D, hD, hfin⟩ := shortest_paths_final g s hg hs
  refine ⟨D, hD, hfin.1, ?_, ?_⟩
  · intro w d
    constructor
    · intro hwd
      refine ⟨hfin.2.1 w d hwd, ?_⟩
      intro k hk
      obtain ⟨d2, hd2, hd2le⟩ := SPFinal_upper hfin w k hk
      rw [hwd] at hd2
      injection hd2 with hd2e
      omega
    · rintro ⟨hwalk, hmin⟩
      obtain ⟨d2, hd2, hd2le⟩ := SPFinal_upper hfin w d hwalk
      have hle := hmin d2 (hfin.2.1 w d2 hd2)
      have hde : d2 = d := le_antisymm hd2le hle
      rw [← hde]
      exact hd2
  · intro w hnw
    rcases halo : alookup w D with _ | d
    · rfl
    · exact absurd (hfin.2.1 w d halo) (hnw d)

/-! ## Step equations and the pop trace -/

theorem spLoop_step_none {g : Graph} {dm pq : List (String × Nat)}
    {tr : List ((String × Nat) × List (String × Nat))} (hpop : popMin pq = none) :
    spLoop g dm pq tr = some (dm, tr) := by
  rw [spLoop.eq_def, hpop]

theorem spLoop_step_fail {g : Graph} {dm pq : List (String × Nat)}
    {tr : List ((String × Nat) × List (String × Nat))} {e : String × Nat}
    {pq1 : List (String × Nat)} (hpop : popMin pq = some (e, pq1))
    (hadj : alookup e.1 g.adjacency_dict = none) : spLoop g dm pq tr = none := by
  rw [spLoop.eq_def]
  split
  · next hx =>
    rw [hx] at hpop
    exact Option.noConfusion hpop
  · next e2 pq2 hx =>
    rw [hx] at hpop
    injection hpop with hpair
    injection hpair with he hq
    subst he
    subst hq
    split
    · next hx2 => rfl
    · next outs2 hx2 =>
      rw [hx2] at hadj
      exact Option.noConfusion hadj

theorem spLoop_step_go {g : Graph} {dm pq : List (String × Nat)}
    {tr : List ((String × Nat) × List (String × Nat))} {e : String × Nat}
    {pq1 : List (String × Nat)} {outedges : List String}
    (hpop : popMin pq = some (e, pq1))
    (hadj : alookup e.1 g.adjacency_dict = some outedges) :
    spLoop g dm pq tr = spLoop g (relaxList outedges e.2 (dm, pq1)).1
      (relaxList outedges e.2 (dm, pq1)).2 (tr ++ [(e, pq)]) := by
  rw [spLoop.eq_def]
  split
  · next hx =>
    rw [hx] at hpop
    exact Option.noConfusion hpop
  · next e2 pq2 hx =>
    rw [hx] at hpop
    injection hpop with hpair
    injection hpair with he hq
    subst he
    subst hq
    split
    · next hx2 =>
      rw [hx2] at hadj
      exact Option.noConfusion hadj
    · next outs2 hx2 =>
      rw [hx2] at hadj
      injection hadj with ho
      subst ho
      rfl

theorem spLoop_trace_lexmin (g : Graph) :
    ∀ dm pq tr res, spLoop g dm pq tr = some res →
      (∀ p ∈ tr, ∀ y ∈ p.2, entryLt y p.1 = false) →
      ∀ p ∈ res.2, ∀ y ∈ p.2, entryLt y p.1 = false := by
  intro dm pq tr
  induction dm, pq, tr using spLoop.induct g with
  | case1 dm pq tr hpop =>
    intro res hres htr
    rw [spLoop_step_none hpop] at hres
    injection hres with hres
    rw [← hres]
    exact htr
  | case2 dm pq tr e pq1 hpop hadj =>
    intro res hres htr
    rw [spLoop_step_fail hpop hadj] at hres
    exact Option.noConfusion hres
  | case3 dm pq tr e pq1 hpop outedges hadj ih =>
    intro res hres htr
    rw [spLoop_step_go hpop hadj] at hres
    refine ih res hres ?_
    intro p hp
    rcases List.mem_append.mp hp with hp | hp
    · exact htr p hp
    · simp at hp
      rw [hp]
      exact (popMin_eq hpop).2.2

theorem spTrace_lexmin {g : Graph} {s : String}
    {tr : List ((String × Nat) × List (String × Nat))}
    (h : spTrace g s = some tr) : popsLexMinimal tr := by
  unfold spTrace at h
  rcases hrun : spLoop g [(s, 0)] [(s, 0)] [] with _ | res
  · rw [hrun] at h
    exact Option.noConfusion h
  · rw [hrun] at h
    injection h with h
    rw [← h]
    exact spLoop_trace_lexmin g [(s, 0)] [(s, 0)] [] res hrun (by simp)

theorem shortest_paths_fail {g : Graph} {s : String}
    (h : alookup s g.adjacency_dict = none) : g.shortest_paths s = none := by
  have hpop : popMin [((s : String), (0 : Nat))] = some ((s, 0), []) := by
    simp [popMin]
  unfold Graph.shortest_paths
  rw [spLoop_step_fail hpop h]
  rfl

/-! ## Reverse-graph lemmas -/

theorem mem_keysOf_of_mem {α : Type} {p : String × α} {m : List (String × α)}
    (h : p ∈ m) : p.1 ∈ keysOf m := List.mem_map.mpr ⟨p, h, rfl⟩

theorem alookup_of_mem_nodup {α : Type} {p : String × α} {m : List (String × α)}
    (hnd : (keysOf m).Nodup) (h : p ∈ m) : alookup p.1 m = some p.2 := by
  induction m with
  | nil => simp at h
  | cons q rest ih =>
    obtain ⟨k1, v1⟩ := q
    rcases List.mem_cons.mp h with h1 | h1
    · rw [h1]
      simp [alookup]
    · have hne : p.1 ≠ k1 := by
        intro he
        have : p.1 ∈ keysOf rest := mem_keysOf_of_mem h1
        rw [he] at this
        simp [keysOf] at hnd
        exact absurd this (by simpa [keysOf] using hnd.1)
      simp only [alookup, if_neg hne]
      exact ih (by simpa [keysOf] using (List.nodup_cons.mp (by simpa [keysOf] using hnd)).2) h1

theorem apush_spec {k x : String} {m : List (String × List String)} (h : k ∈ keysOf m) :
    ∃ m2, apush k x m = some m2 ∧ keysOf m2 = keysOf m ∧
      alookup k m2 = (alookup k m).map (fun l => l ++ [x]) ∧
      ∀ j, j ≠ k → alookup j m2 = alookup j m := by
  induction m with
  | nil => simp [keysOf] at h
  | cons q rest ih =>
    obtain ⟨k1, v1⟩ := q
    by_cases hc : k = k1
    · subst hc
      refine ⟨(k, v1 ++ [x]) :: rest, by simp [apush], by simp [keysOf], ?_, ?_⟩
      · simp [alookup]
      · intro j hj
        simp [alookup, hj]
    · have hmem : k ∈ keysOf rest := by
        simp [keysOf] at h
        rcases h with h | h
        · exact absurd h hc
        · simpa [keysOf] using h
      obtain ⟨m2, hm2, hkeys, hself, hother⟩ := ih hmem
      refine ⟨(k1, v1) :: m2, ?_, ?_, ?_, ?_⟩
      · simp [apush, hc, hm2]
      · simp [keysOf, hkeys] at *
        simpa [keysOf] using hkeys
      · simp only [alookup, if_neg hc]
        exact hself
      · intro j hj
        by_cases hjk : j = k1
        · simp [alookup, hjk]
        · simp only [alookup, if_neg hjk]
          exact hother j hj

theorem pushAllRev_spec (u : String) :
    ∀ (outs : List String) (m : List (String × List String)),
    (∀ v ∈ outs, v ∈ keysOf m) →
    ∃ m2, pushAllRev u outs m = some m2 ∧ keysOf m2 = keysOf m ∧
      ∀ j w, ((alookup j m2).getD []).count w =
        ((alookup j m).getD []).count w + (if w = u then outs.count j else 0) := by
  intro outs
  induction outs with
  | nil =>
    intro m hmem
    exact ⟨m, rfl, rfl, by simp⟩
  | cons v vs ih =>
    intro m hmem
    obtain ⟨m1, hm1, hkeys1, hself1, hother1⟩ := apush_spec (hmem v (by simp)) (x := u)
    have hmem2 : ∀ w ∈ vs, w ∈ keysOf m1 := by
      intro w hw
      rw [hkeys1]
      exact hmem w (List.mem_cons_of_mem v hw)
    obtain ⟨m2, hm2, hkeys2, hcount2⟩ := ih m1 hmem2
    refine ⟨m2, ?_, hkeys2.trans hkeys1, ?_⟩
    · have : pushAllRev u (v :: vs) m = (apush v u m).bind (fun acc => pushAllRev u vs acc) := by
        simp [pushAllRev, List.foldlM_cons]
      rw [this, hm1]
      exact hm2
    · intro j w
      rw [hcount2 j w]
      by_cases hjv : j = v
      · subst hjv
        rw [hself1]
        have hvk := hmem j (by simp)
        rcases hlo : alookup j m with _ | l
        · exact absurd hvk ((alookup_none_iff j m).mp hlo)
        · have hgd : (Option.map (fun l => l ++ [u]) (some l)).getD [] = l ++ [u] := rfl
          rw [hgd, List.count_append]
          have hcnt : (j :: vs).count j = vs.count j + 1 := by simp [List.count_cons]
          by_cases hwu : w = u
          · subst hwu
            have hone : List.count w [w] = 1 := by simp
            rw [hcnt]
            simp [hone]
            omega
          · have hzero : List.count w [u] = 0 := by
              simp [List.count_singleton]
              exact fun he => hwu he.symm
            rw [hzero]
            simp [hwu]
      · rw [hother1 j hjv]
        have hcnt : (v :: vs).count j = vs.count j := by
          rw [List.count_cons]
          simp
          exact fun he => hjv he.symm
        rw [hcnt]

theorem keysOf_init (ns : List String) :
    keysOf (ns.map (fun n => (n, ([] : List String)))) = ns := by
  induction ns with
  | nil => rfl
  | cons n rest ih => simp [keysOf] at *; simpa [keysOf] using ih

theorem alookup_init (ns : List String) (j : String) :
    alookup j (ns.map (fun n => (n, ([] : List String)))) = none ∨
    alookup j (ns.map (fun n => (n, ([] : List String)))) = some [] := by
  induction ns with
  | nil => left; rfl
  | cons n rest ih =>
    by_cases hc : j = n
    · right; simp [alookup, hc]
    · simpa [alookup, hc] using ih

theorem revFold_spec (g : Graph) :
    ∀ (ns : List String) (acc : List (String × List String)),
    ns.Nodup →
    (∀ n ∈ ns, ∃ outs, alookup n g.adjacency_dict = some outs ∧ ∀ v ∈ outs, v ∈ keysOf acc) →
    ∃ m2, ns.foldlM (fun acc node => (alookup node g.adjacency_dict).bind
        (fun outs => pushAllRev node outs acc)) acc = some m2 ∧
      keysOf m2 = keysOf acc ∧
      ∀ j w, ((alookup j m2).getD []).count w =
        ((alookup j acc).getD []).count w + (if w ∈ ns then (g.adjOf w).count j else 0) := by
  intro ns
  induction ns with
  | nil =>
    intro acc hnd hmem
    exact ⟨acc, rfl, rfl, by simp⟩
  | cons n rest ih =>
    intro acc hnd hmem
    obtain ⟨outs, houts, hsub⟩ := hmem n (by simp)
    obtain ⟨m1, hm1, hkeys1, hcount1⟩ := pushAllRev_spec n outs acc hsub
    have hmem2 : ∀ p ∈ rest, ∃ outs2, alookup p g.adjacency_dict = some outs2 ∧
        ∀ v ∈ outs2, v ∈ keysOf m1 := by
      intro p hp
      obtain ⟨outs2, h1, h2⟩ := hmem p (List.mem_cons_of_mem n hp)
      exact ⟨outs2, h1, fun v hv => hkeys1 ▸ h2 v hv⟩
    obtain ⟨m2, hm2, hkeys2, hcount2⟩ := ih m1 (List.nodup_cons.mp hnd).2 hmem2
    refine ⟨m2, ?_, hkeys2.trans hkeys1, ?_⟩
    · rw [List.foldlM_cons, houts]
      simp only [Option.some_bind]
      rw [hm1]
      exact hm2
    · intro j w
      rw [hcount2 j w, hcount1 j w]
      have hadjn : g.adjOf n = outs := by
        unfold Graph.adjOf
        rw [houts]
        rfl
      by_cases hwn : w = n
      · subst hwn
        have hwrest : w ∉ rest := (List.nodup_cons.mp hnd).1
        simp [hwrest, hadjn]
      · simp only [List.mem_cons]
        by_cases hwrest : w ∈ rest
        · simp [hwn, hwrest]
        · simp [hwn, hwrest]

theorem reverse_spec (g : Graph) (hg : g.invariant) :
    ∃ r, g.reverse = some r ∧ r.size = g.size ∧ r.nodes = g.nodes ∧
      keysOf r.adjacency_dict = g.nodes ∧
      (∀ u v, (r.adjOf v).count u = (g.adjOf u).count v) ∧
      r.invariant := by
  have hinit : keysOf (g.nodes.map (fun n => (n, ([] : List String)))) = g.nodes :=
    keysOf_init g.nodes
  have hmem : ∀ n ∈ g.nodes, ∃ outs, alookup n g.adjacency_dict = some outs ∧
      ∀ v ∈ outs, v ∈ keysOf (g.nodes.map (fun n => (n, ([] : List String)))) := by
    intro n hn
    obtain ⟨outs, houts⟩ := invariant_lookup hg hn
    refine ⟨outs, houts, ?_⟩
    intro v hv
    rw [hinit]
    exact (invariant_closed hg houts).2 v hv
  obtain ⟨m2, hm2, hkeys, hcount⟩ := revFold_spec g g.nodes
    (g.nodes.map (fun n => (n, ([] : List String)))) hg.1 hmem
  have hrev : g.reverse = some { size := g.size, adjacency_dict := m2, nodes := g.nodes } := by
    unfold Graph.reverse
    rw [hm2]
    rfl
  set r : Graph := { size := g.size, adjacency_dict := m2, nodes := g.nodes } with hr
  have hrkeys : keysOf r.adjacency_dict = g.nodes := hkeys.trans hinit
  have hcnt : ∀ u v, (r.adjOf v).count u = (g.adjOf u).count v := by
    intro u v
    have h1 : r.adjOf v = (alookup v m2).getD [] := rfl
    rw [h1, hcount v u]
    have hzero : ((alookup v (g.nodes.map (fun n => (n, ([] : List String))))).getD []).count u
        = 0 := by
      rcases alookup_init g.nodes v with h | h
      · rw [h]; rfl
      · rw [h]; rfl
    rw [hzero]
    by_cases hu : u ∈ g.nodes
    · simp [hu]
    · simp [hu]
      have : alookup u g.adjacency_dict = none := by
        rcases halo : alookup u g.adjacency_dict with _ | l
        · rfl
        · exact absurd (invariant_closed hg halo).1 hu
      unfold Graph.adjOf
      rw [this]
      rfl
  refine ⟨r, hrev, rfl, rfl, hrkeys, hcnt, ?_⟩
  refine ⟨hg.1, ?_, ?_, ?_, ?_⟩
  · rw [hrkeys]; exact hg.1
  · intro u hu
    rw [hrkeys]
    exact hu
  · intro p hp
    have hp1 : p.1 ∈ g.nodes := by
      rw [← hrkeys]
      exact mem_keysOf_of_mem hp
    refine ⟨hp1, ?_⟩
    intro v hv
    have hlook : alookup p.1 r.adjacency_dict = some p.2 :=
      alookup_of_mem_nodup (by rw [hrkeys]; exact hg.1) hp
    have hadj : r.adjOf p.1 = p.2 := by
      unfold Graph.adjOf
      rw [hlook]
      rfl
    have hpos : 0 < (r.adjOf p.1).count v := by
      rw [hadj]
      exact List.count_pos_iff.mpr hv
    rw [hcnt v p.1] at hpos
    have : g.adjOf v ≠ [] := by
      intro he
      rw [he] at hpos
      simp at hpos
    rcases halo : alookup v g.adjacency_dict with _ | l
    · exfalso
      apply this
      unfold Graph.adjOf
      rw [halo]
      rfl
    · exact (invariant_closed hg halo).1
  · exact hg.2.2.2.2

/-! ## Degree-centrality lemmas -/

theorem degree_perm (g : Graph) :
    g.degree.Perm (g.adjacency_dict.map (fun p => (p.1, p.2.length))) :=
  List.perm_insertionSort _ _

theorem keysOf_perm_nodes {g : Graph} (hg : g.invariant) :
    (keysOf g.adjacency_dict).Perm g.nodes := by
  have h1 : ∀ a, a ∈ keysOf g.adjacency_dict ↔ a ∈ g.nodes := by
    intro a
    constructor
    · intro ha
      have : (alookup a g.adjacency_dict).isSome := (alookup_isSome_iff a _).mpr ha
      rcases halo : alookup a g.adjacency_dict with _ | l
      · rw [halo] at this; simp at this
      · exact (invariant_closed hg halo).1
    · intro ha
      exact hg.2.2.1 a ha
  exact (List.perm_ext_iff_of_nodup hg.2.1 hg.1).mpr h1

theorem out_degree_spec (g : Graph) (hg : g.invariant) :
    (g.out_degree_centrality.map Prod.fst).Perm g.nodes ∧
    (∀ p ∈ g.out_degree_centrality, p.2 = centScore g.size (g.adjOf p.1).length) ∧
    (∀ v ∈ g.nodes, (v, centScore g.size (g.adjOf v).length) ∈ g.out_degree_centrality) := by
  have hfst : g.out_degree_centrality.map Prod.fst = g.degree.map Prod.fst := by
    unfold Graph.out_degree_centrality
    rw [List.map_map]
    rfl
  have hdperm : (g.degree.map Prod.fst).Perm (keysOf g.adjacency_dict) := by
    have h1 := (degree_perm g).map Prod.fst
    rw [List.map_map] at h1
    exact h1
  refine ⟨?_, ?_, ?_⟩
  · rw [hfst]
    exact hdperm.trans (keysOf_perm_nodes hg)
  · intro p hp
    unfold Graph.out_degree_centrality at hp
    obtain ⟨q, hq, hpq⟩ := List.mem_map.mp hp
    obtain ⟨t, ht, hqt⟩ := List.mem_map.mp ((degree_perm g).mem_iff.mp hq)
    have hlook : alookup t.1 g.adjacency_dict = some t.2 := alookup_of_mem_nodup hg.2.1 ht
    have hadj : g.adjOf t.1 = t.2 := by
      unfold Graph.adjOf
      rw [hlook]
      rfl
    rw [← hpq, ← hqt]
    simp [hadj]
  · intro v hv
    obtain ⟨l, hl⟩ := invariant_lookup hg hv
    have hmem : (v, l) ∈ g.adjacency_dict := alookup_mem hl
    have hadj : g.adjOf v = l := by
      unfold Graph.adjOf
      rw [hl]
      rfl
    have hdeg : (v, l.length) ∈ g.degree := by
      rw [(degree_perm g).mem_iff]
      exact List.mem_map.mpr ⟨(v, l), hmem, rfl⟩
    unfold Graph.out_degree_centrality
    rw [hadj]
    exact List.mem_map.mpr ⟨(v, l.length), hdeg, rfl⟩

theorem in_degree_eq {g r : Graph} (hrev : g.reverse = some r) (hsize : r.size = g.size) :
    g.in_degree_centrality = some r.out_degree_centrality := by
  unfold Graph.in_degree_centrality Graph.out_degree_centrality
  rw [hrev, hsize]
  rfl

/-! ## Option mapM lemmas -/

theorem mapM_loop_spec {α β : Type} (f : α → Option β) :
    ∀ (l : List α) (acc : List β), (∀ a ∈ l, ∃ b, f a = some b) →
    ∃ bs, List.mapM.loop f l acc = some (acc.reverse ++ bs) ∧
      List.Forall₂ (fun a b => f a = some b) l bs := by
  intro l
  induction l with
  | nil =>
    intro acc h
    exact ⟨[], by simp [List.mapM.loop], List.Forall₂.nil⟩
  | cons a as ih =>
    intro acc h
    obtain ⟨b, hb⟩ := h a (by simp)
    obtain ⟨bs, hbs, hfa⟩ := ih (b :: acc) (fun x hx => h x (by simp [hx]))
    refine ⟨b :: bs, ?_, List.Forall₂.cons hb hfa⟩
    have hred : List.mapM.loop f (a :: as) acc =
        (f a).bind (fun b2 => List.mapM.loop f as (b2 :: acc)) := rfl
    rw [hred, hb, Option.some_bind, hbs]
    simp

theorem mapM_option_spec {α β : Type} (f : α → Option β) (l : List α)
    (h : ∀ a ∈ l, ∃ b, f a = some b) :
    ∃ bs, l.mapM f = some bs ∧ List.Forall₂ (fun a b => f a = some b) l bs := by
  obtain ⟨bs, hbs, hfa⟩ := mapM_loop_spec f l [] h
  exact ⟨bs, by simpa [List.mapM] using hbs, hfa⟩

theorem forall2_mem_left {α β : Type} {R : α → β → Prop} :
    ∀ {l : List α} {bs : List β}, List.Forall₂ R l bs → ∀ a ∈ l, ∃ b ∈ bs, R a b := by
  intro l bs h
  induction h with
  | nil => intro a ha; simp at ha
  | cons hR hrest ih =>
    intro a ha
    rcases List.mem_cons.mp ha with ha | ha
    · subst ha
      exact ⟨_, by simp, hR⟩
    · obtain ⟨b, hb, hRb⟩ := ih a ha
      exact ⟨b, List.mem_cons_of_mem _ hb, hRb⟩

theorem forall2_fst {α β : Type} {R : α → (α × β) → Prop} :
    ∀ {l : List α} {bs : List (α × β)}, List.Forall₂ R l bs →
    (∀ a b, R a b → b.1 = a) → bs.map Prod.fst = l := by
  intro l bs h
  induction h with
  | nil => intro _; rfl
  | cons hR hrest ih =>
    intro hfst
    simp only [List.map_cons]
    rw [hfst _ _ hR, ih hfst]

theorem nodup_fst_unique {β : Type} {l : List (String × β)}
    (h : (l.map Prod.fst).Nodup) :
    ∀ {v : String} {b1 b2 : β}, (v, b1) ∈ l → (v, b2) ∈ l → b1 = b2 := by
  induction l with
  | nil => intro v b1 b2 h1; simp at h1
  | cons p rest ih =>
    intro v b1 b2 h1 h2
    simp only [List.map_cons, List.nodup_cons] at h
    rcases List.mem_cons.mp h1 with h1 | h1
    · rcases List.mem_cons.mp h2 with h2 | h2
      · rw [← h1] at h2
        injection h2 with _ hb
        exact hb.symm
      · exfalso
        apply h.1
        rw [← h1]
        exact List.mem_map.mpr ⟨(v, b2), h2, rfl⟩
    · rcases List.mem_cons.mp h2 with h2 | h2
      · exfalso
        apply h.1
        rw [← h2]
        exact List.mem_map.mpr ⟨(v, b1), h1, rfl⟩
      · exact ih h.2 h1 h2

/-! ## Closeness pipeline -/

theorem closeness_spec (g : Graph) (hg : g.invariant) :
    ∃ r L, g.reverse = some r ∧ r.invariant ∧ r.nodes = g.nodes ∧ r.size = g.size ∧
      (∀ u v, (r.adjOf v).count u = (g.adjOf u).count v) ∧
      g.closeness_centrality = some L ∧
      (L.map Prod.fst).Perm g.nodes ∧
      ∀ v ∈ g.nodes, ∃ D, r.shortest_paths v = some D ∧ (v, closenessOf g.size D) ∈ L ∧
        ∀ sc, (v, sc) ∈ L → sc = closenessOf g.size D := by
  obtain ⟨r, hrev, hrsize, hrnodes, hrkeys, hrcnt, hrinv⟩ := reverse_spec g hg
  have hf : ∀ v ∈ r.nodes, ∃ b,
      (r.shortest_paths v).map (fun sp => (v, closenessOf r.size sp)) = some b := by
    intro v hv
    obtain ⟨D, hD, _⟩ := shortest_paths_final r v hrinv hv
    exact ⟨(v, closenessOf r.size D), by rw [hD]; rfl⟩
  obtain ⟨cs, hcs, hfa⟩ := mapM_option_spec
    (fun node => (r.shortest_paths node).map (fun sp => (node, closenessOf r.size sp)))
    r.nodes hf
  have hcsfst : cs.map Prod.fst = r.nodes := by
    refine forall2_fst hfa ?_
    intro a b hab
    rcases hsp : r.shortest_paths a with _ | D
    · rw [hsp] at hab; exact Option.noConfusion hab
    · rw [hsp] at hab
      injection hab with hab
      rw [← hab]
  have hL : g.closeness_centrality = some
      (List.insertionSort (fun a b => ((F.pcmp b.2 a.2).getD Ordering.eq) ≠ Ordering.gt) cs) := by
    unfold Graph.closeness_centrality
    rw [hrev, Option.some_bind, hcs]
    rfl
  set L := List.insertionSort (fun a b => ((F.pcmp b.2 a.2).getD Ordering.eq) ≠ Ordering.gt) cs
    with hLdef
  have hperm : L.Perm cs := List.perm_insertionSort _ cs
  refine ⟨r, L, hrev, hrinv, hrnodes, hrsize, hrcnt, hL, ?_, ?_⟩
  · have := hperm.map Prod.fst
    rw [hcsfst, hrnodes] at this
    exact this
  · intro v hv
    rw [← hrnodes] at hv
    obtain ⟨b, hbmem, hab⟩ := forall2_mem_left hfa v hv
    rcases hsp : r.shortest_paths v with _ | D
    · rw [hsp] at hab; exact Option.noConfusion hab
    · rw [hsp] at hab
      injection hab with hab
      have hbval : b = (v, closenessOf g.size D) := by
        rw [← hab, hrsize]
      refine ⟨D, rfl, ?_, ?_⟩
      · rw [← hbval]
        exact hperm.mem_iff.mpr hbmem
      · intro sc hsc
        have hnd : (cs.map Prod.fst).Nodup := by
          rw [hcsfst]
          exact hrinv.1
        have h1 : (v, sc) ∈ cs := hperm.mem_iff.mp hsc
        have h2 : (v, closenessOf g.size D) ∈ cs := by
          rw [← hbval]
          exact hbmem
        exact nodup_fst_unique hnd h1 h2

/-! ## Small helpers for the claims -/

theorem shortest_paths_no_out {g : Graph} {s : String}
    (h : alookup s g.adjacency_dict = some []) : g.shortest_paths s = some [(s, 0)] := by
  have hpop : popMin [((s : String), (0 : Nat))] = some ((s, 0), []) := by
    simp [popMin]
  unfold Graph.shortest_paths
  rw [spLoop_step_go hpop h]
  show (spLoop g [(s, 0)] [] [((s, 0), [(s, 0)])]).map Prod.fst = some [(s, 0)]
  rw [spLoop_step_none (show popMin ([] : List (String × Nat)) = none from rfl)]
  rfl

theorem centScore_of_lt {N : Nat} (h : 1 < N) (d : Nat) :
    centScore N d = F.fin ((d : ℚ) / ((N : ℚ) - 1)) := by
  have hcast : ((N - 1 : ℕ) : ℚ) = (N : ℚ) - 1 := by
    have h1 : (1 : ℕ) ≤ N := by omega
    push_cast [h1]
    ring
  have hgt : (1 : ℚ) < (N : ℚ) := by exact_mod_cast h
  have hne2 : (N : ℚ) - 1 ≠ 0 := by
    intro he
    have h1 : (N : ℚ) = 1 := by linarith
    rw [h1] at hgt
    exact lt_irrefl 1 hgt
  unfold centScore
  rw [hcast]
  simp [F.div, hne2]

theorem adjOf_eq_of_lookup {g : Graph} {u : String} {l : List String}
    (h : alookup u g.adjacency_dict = some l) : g.adjOf u = l := by
  unfold Graph.adjOf
  rw [h]
  rfl

/-! ## Concrete evaluations -/

theorem reverse_G1 : G1.reverse = some G1r := by decide

theorem reverse_G2 : G2.reverse = some G2r := by decide

theorem sp_G1r_a : G1r.shortest_paths "a" = some [("a", 0)] := by
  simp [Graph.shortest_paths, spLoop, popMin, entryLt, strLt, charsLt, alookup,
    relaxList, relax, ainsert]

theorem sp_G1r_b : G1r.shortest_paths "b" = some [("b", 0), ("a", 1)] := by
  simp [Graph.shortest_paths, spLoop, popMin, entryLt, strLt, charsLt, alookup,
    relaxList, relax, ainsert]

theorem sp_G1r_c : G1r.shortest_paths "c" = some [("c", 0)] := by
  simp [Graph.shortest_paths, spLoop, popMin, entryLt, strLt, charsLt, alookup,
    relaxList, relax, ainsert]

theorem sp_G2r_a : G2r.shortest_paths "a" = some [("a", 0)] := by
  simp [Graph.shortest_paths, spLoop, popMin, entryLt, strLt, charsLt, alookup,
    relaxList, relax, ainsert]

theorem sp_G2r_b : G2r.shortest_paths "b" = some [("b", 0), ("a", 1), ("c", 1)] := by
  simp [Graph.shortest_paths, spLoop, popMin, entryLt, strLt, charsLt, alookup,
    relaxList, relax, ainsert]

theorem sp_G2r_c : G2r.shortest_paths "c" = some [("c", 0)] := by
  simp [Graph.shortest_paths, spLoop, popMin, entryLt, strLt, charsLt, alookup,
    relaxList, relax, ainsert]

theorem closeness_G1 :
    G1.closeness_centrality = some [("b", F.fin 2), ("a", F.fin 0), ("c", F.fin 0)] := by
  have hs0 : closenessOf G1r.size [("a", 0)] = F.fin 0 := by decide
  have hs2 : closenessOf G1r.size [("b", 0), ("a", 1)] = F.fin 2 := by
    show closenessOf 3 [("b", 0), ("a", 1)] = F.fin 2
    simp [closenessOf, dsum, F.div, F.sub, F.mul]
    norm_num
  have hs0c : closenessOf G1r.size [("c", 0)] = F.fin 0 := by decide
  have hmap : G1r.nodes.mapM (fun node =>
      (G1r.shortest_paths node).map (fun sp => (node, closenessOf G1r.size sp))) =
      some [("a", F.fin 0), ("b", F.fin 2), ("c", F.fin 0)] := by
    show List.mapM _ ["a", "b", "c"] = _
    simp only [List.mapM, List.mapM.loop, sp_G1r_a, sp_G1r_b, sp_G1r_c]
    simp [hs0, hs2, hs0c]
  show G1.reverse.bind _ = _
  rw [reverse_G1, Option.some_bind, hmap]
  simp [List.insertionSort, List.orderedInsert, F.pcmp]

theorem closeness_G2 :
    G2.closeness_centrality = some [("b", F.fin 3), ("a", F.fin 0), ("c", F.fin 0)] := by
  have hs0 : closenessOf G2r.size [("a", 0)] = F.fin 0 := by decide
  have hs3 : closenessOf G2r.size [("b", 0), ("a", 1), ("c", 1)] = F.fin 3 := by
    show closenessOf 3 [("b", 0), ("a", 1), ("c", 1)] = F.fin 3
    simp [closenessOf, dsum, F.div, F.sub, F.mul]
    norm_num
  have hs0c : closenessOf G2r.size [("c", 0)] = F.fin 0 := by decide
  have hmap : G2r.nodes.mapM (fun node =>
      (G2r.shortest_paths node).map (fun sp => (node, closenessOf G2r.size sp))) =
      some [("a", F.fin 0), ("b", F.fin 3), ("c", F.fin 0)] := by
    show List.mapM _ ["a", "b", "c"] = _
    simp only [List.mapM, List.mapM.loop, sp_G2r_a, sp_G2r_b, sp_G2r_c]
    simp [hs0, hs3, hs0c]
  show G2.reverse.bind _ = _
  rw [reverse_G2, Option.some_bind, hmap]
  simp [List.insertionSort, List.orderedInsert, F.pcmp]

theorem trace_G5 : spTrace G5 "c" = some
    [(("c", 0), [("c", 0)]), (("a", 1), [("a", 1), ("x", 1)]),
     (("b", 2), [("x", 1), ("b", 2)]), (("x", 1), [("x", 1)])] := by
  simp [spTrace, spLoop, popMin, entryLt, strLt, charsLt, alookup, relaxList, relax, ainsert]

/-! ## The claims -/

/-- C3: for every graph satisfying the §3 invariant and every node `v` in it,
`shortest_paths` succeeds and its distance map sends `v` to 0, sends exactly
the reachable nodes to the minimum number of arcs on any directed path
(walk) from `v`, and has no entry for unreachable nodes. -/
theorem c3_shortest_paths_correct (g : Graph) (v : String) (hg : g.invariant)
    (hv : v ∈ g.nodes) :
    ∃ D, g.shortest_paths v = some D ∧
      alookup v D = some 0 ∧
      (∀ w d, alookup w D = some d ↔ hasWalk g v w d ∧ ∀ k, hasWalk g v w k → d ≤ k) ∧
      (∀ w, (∀ k, ¬ hasWalk g v w k) → alookup w D = none) :=
  shortest_paths_correct g v hg hv

/-- Witness for C3 at the concrete graph `G2` and start node `a`. -/
theorem c3_witness : (G2.invariant ∧ "a" ∈ G2.nodes) ∧
    ∃ D, G2.shortest_paths "a" = some D ∧
      alookup "a" D = some 0 ∧
      (∀ w d, alookup w D = some d ↔ hasWalk G2 "a" w d ∧ ∀ k, hasWalk G2 "a" w k → d ≤ k) ∧
      (∀ w, (∀ k, ¬ hasWalk G2 "a" w k) → alookup w D = none) :=
  ⟨⟨by decide, by decide⟩, c3_shortest_paths_correct G2 "a" (by decide) (by decide)⟩

/-- C6: under the §3 invariant `reverse` succeeds and returns a new graph
with the same node set and size, whose adjacency keys are exactly the nodes,
and which has the arc `(v, u)` with the same multiplicity as `(u, v)` in the
original and no other arcs (both captured by the count equation over all
string pairs).  The receiver is not mutated: `reverse` is a pure function in
this embedding, as in the Rust code, which takes `&self`. -/
theorem c6_reverse_fresh (g : Graph) (hg : g.invariant) :
    ∃ r, g.reverse = some r ∧ r.nodes = g.nodes ∧ r.size = g.size ∧
      keysOf r.adjacency_dict = g.nodes ∧
      ∀ u v, (r.adjOf v).count u = (g.adjOf u).count v := by
  obtain ⟨r, h1, h2, h3, h4, h5, _⟩ := reverse_spec g hg
  exact ⟨r, h1, h3, h2, h4, h5⟩

/-- Witness for C6 at the concrete graph `G2`. -/
theorem c6_witness : G2.invariant ∧
    ∃ r, G2.reverse = some r ∧ r.nodes = G2.nodes ∧ r.size = G2.size ∧
      keysOf r.adjacency_dict = G2.nodes ∧
      ∀ u v, (r.adjOf v).count u = (G2.adjOf u).count v :=
  ⟨by decide, c6_reverse_fresh G2 (by decide)⟩

/-- C7: under the §3 invariant, reversing twice gives a graph with the same
node set whose adjacency sequence for every node is a permutation (same
multiset of destinations) of the original one. -/
theorem c7_reverse_involution (g : Graph) (hg : g.invariant) :
    ∃ r rr, g.reverse = some r ∧ r.reverse = some rr ∧ rr.nodes = g.nodes ∧
      ∀ u, (rr.adjOf u).Perm (g.adjOf u) := by
  obtain ⟨r, h1, hsize, hnodes, hkeys, hcnt, hrinv⟩ := reverse_spec g hg
  obtain ⟨rr, h1b, hsizeb, hnodesb, hkeysb, hcntb, hrrinv⟩ := reverse_spec r hrinv
  refine ⟨r, rr, h1, h1b, by rw [hnodesb, hnodes], ?_⟩
  intro u
  rw [List.perm_iff_count]
  intro v
  rw [hcntb v u, hcnt u v]

/-- Witness for C7 at the concrete graph `G2`. -/
theorem c7_witness : G2.invariant ∧
    ∃ r rr, G2.reverse = some r ∧ r.reverse = some rr ∧ rr.nodes = G2.nodes ∧
      ∀ u, (rr.adjOf u).Perm (G2.adjOf u) :=
  ⟨by decide, c7_reverse_involution G2 (by decide)⟩

/-- C8: under the §3 invariant and with more than one node,
`in_degree_centrality g` and `out_degree_centrality (g.reverse())` hold the
same set of `(node, score)` pairs, each node appearing exactly once in each
(in this embedding the two lists are even equal). -/
theorem c8_in_eq_out_of_reverse (g : Graph) (hg : g.invariant) (hN : 1 < g.size) :
    ∃ r L, g.reverse = some r ∧ g.in_degree_centrality = some L ∧
      (∀ p, p ∈ L ↔ p ∈ r.out_degree_centrality) ∧
      (L.map Prod.fst).Nodup ∧ (r.out_degree_centrality.map Prod.fst).Nodup := by
  obtain ⟨r, h1, hsize, hnodes, hkeys, hcnt, hrinv⟩ := reverse_spec g hg
  have heq := in_degree_eq h1 hsize
  obtain ⟨hperm, _, _⟩ := out_degree_spec r hrinv
  have hnd : (r.out_degree_centrality.map Prod.fst).Nodup :=
    hperm.nodup_iff.mpr hrinv.1
  exact ⟨r, r.out_degree_centrality, h1, heq, fun p => Iff.rfl, hnd, hnd⟩

/-- Witness for C8 at the concrete graph `G2` (three nodes). -/
theorem c8_witness : (G2.invariant ∧ 1 < G2.size) ∧
    ∃ r L, G2.reverse = some r ∧ G2.in_degree_centrality = some L ∧
      (∀ p, p ∈ L ↔ p ∈ r.out_degree_centrality) ∧
      (L.map Prod.fst).Nodup ∧ (r.out_degree_centrality.map Prod.fst).Nodup :=
  ⟨⟨by decide, by decide⟩, c8_in_eq_out_of_reverse G2 (by decide) (by decide)⟩

/-- C9: on the empty graph every centrality routine returns an empty result
and nothing fails: the `usize` underflow `size - 1` is never evaluated (the
loops that would evaluate it iterate over an empty collection), and no
lookup panics (`in_degree_centrality` and `closeness_centrality` return
`some`, i.e. no `expect` fires). -/
theorem c9_empty_graph :
    Gempty.out_degree_centrality = [] ∧ Gempty.in_degree_centrality = some [] ∧
    Gempty.closeness_centrality = some [] := by
  refine ⟨rfl, rfl, rfl⟩

/-- C10: under the §3 invariant with a start node in the node set,
`shortest_paths` returns a result, so every adjacency lookup of a popped
node succeeded (the `expect("outedges")` branch, modelled by `none`, is
unreachable); and when the start node is not an adjacency key, the very
first lookup fails and `shortest_paths` returns no result. -/
theorem c10_lookup_safety (g : Graph) (s : String) :
    (g.invariant → s ∈ g.nodes → ∃ D, g.shortest_paths s = some D) ∧
    (alookup s g.adjacency_dict = none → g.shortest_paths s = none) := by
  constructor
  · intro hg hs
    obtain ⟨D, hD, _⟩ := shortest_paths_final g s hg hs
    exact ⟨D, hD⟩
  · exact shortest_paths_fail

/-- Witness for C10: success on `G2` from `a`, failure on the empty graph
from the absent key `zz`. -/
theorem c10_witness :
    (G2.invariant ∧ "a" ∈ G2.nodes ∧ alookup "zz" Gempty.adjacency_dict = none) ∧
    (∃ D, G2.shortest_paths "a" = some D) ∧ Gempty.shortest_paths "zz" = none :=
  ⟨⟨by decide, by decide, by decide⟩,
    (c10_lookup_safety G2 "a").1 (by decide) (by decide),
    (c10_lookup_safety Gempty "zz").2 (by decide)⟩

/-- C1 counterexample: on the three-node graph `G1` (single arc `a → b`) the
code gives node `b` the closeness score 2, while the claimed formula
`((n - 1) / (N - 1)) * (n / S)` over the distance map the code uses gives 1.
The code divides by `(big_n - 1)` with `big_n = N - 1`, i.e. by `N - 2`,
not by `N - 1`. -/
theorem c1_counterexample :
    G1.invariant ∧ "b" ∈ G1.nodes ∧
    ¬ (∀ L, G1.closeness_centrality = some L →
        ∀ r D, G1.reverse = some r → r.shortest_paths "b" = some D →
          ("b", claimScoreC1 G1.size D) ∈ L) := by
  refine ⟨by decide, by decide, ?_⟩
  intro hcl
  have hval : claimScoreC1 G1.size [("b", 0), ("a", 1)] = F.fin 1 := by
    show claimScoreC1 3 [("b", 0), ("a", 1)] = F.fin 1
    simp [claimScoreC1, dsum, F.div, F.sub, F.mul]
    norm_num
  have hmem := hcl _ closeness_G1 G1r _ reverse_G1 sp_G1r_b
  rw [hval] at hmem
  exact absurd hmem (by decide)

/-- C1 amended: every node `v` appears exactly once in the closeness output,
with the score `closenessOf`: `((n - 1) / ((N - 1) - 1)) * (n / S)` — the
denominator is `N - 2`, since the code divides by `big_n - 1` with
`big_n = N - 1` — and 0 when `S = 0`, where `D` is the distance map of `v`
in the reversed graph, `n = |D|` and `S` its sum. -/
theorem c1_closeness_formula (g : Graph) (hg : g.invariant) :
    ∃ r L, g.reverse = some r ∧ g.closeness_centrality = some L ∧
      (L.map Prod.fst).Perm g.nodes ∧
      ∀ v ∈ g.nodes, ∃ D, r.shortest_paths v = some D ∧
        (v, closenessOf g.size D) ∈ L ∧ ∀ sc, (v, sc) ∈ L → sc = closenessOf g.size D := by
  obtain ⟨r, L, h1, _, _, _, _, h6, h7, h8⟩ := closeness_spec g hg
  exact ⟨r, L, h1, h6, h7, h8⟩

/-- Witness for the amended C1 at the concrete graph `G1`. -/
theorem c1_witness : G1.invariant ∧
    ∃ r L, G1.reverse = some r ∧ G1.closeness_centrality = some L ∧
      (L.map Prod.fst).Perm G1.nodes ∧
      ∀ v ∈ G1.nodes, ∃ D, r.shortest_paths v = some D ∧
        (v, closenessOf G1.size D) ∈ L ∧ ∀ sc, (v, sc) ∈ L → sc = closenessOf G1.size D :=
  ⟨by decide, c1_closeness_formula G1 (by decide)⟩

/-- C2 counterexample: in `G2` node `b` has no outgoing arcs, and
`shortest_paths(G2, b)` is just `{b ↦ 0}`, so the claim would force its
closeness score to 0; but `closeness_centrality` reverses the graph first
(`let graph = self.reverse()`), and `b`'s actual score is 3. -/
theorem c2_counterexample :
    G2.invariant ∧ "b" ∈ G2.nodes ∧ G2.adjOf "b" = [] ∧
    G2.shortest_paths "b" = some [("b", 0)] ∧
    G2.closeness_centrality = some [("b", F.fin 3), ("a", F.fin 0), ("c", F.fin 0)] ∧
    ¬ (∀ L, G2.closeness_centrality = some L → ("b", F.fin 0) ∈ L) := by
  refine ⟨by decide, by decide, by decide, ?_, closeness_G2, ?_⟩
  · exact shortest_paths_no_out (by decide)
  · intro hcl
    have := hcl _ closeness_G2
    exact absurd this (by decide)

/-- C2 amended: the distance map `closeness_centrality(G)` uses for `v` is
`shortest_paths(G.reverse(), v)` — distances along incoming arcs of `G` — so
a node with no incoming arcs in `G` gets closeness score exactly 0. -/
theorem c2_closeness_uses_reverse (g : Graph) (v : String) (hg : g.invariant)
    (hv : v ∈ g.nodes) (hno : ∀ p ∈ g.adjacency_dict, v ∉ p.2) :
    ∃ r L, g.reverse = some r ∧ g.closeness_centrality = some L ∧
      r.shortest_paths v = some [(v, 0)] ∧ (v, F.fin 0) ∈ L := by
  obtain ⟨r, L, h1, hrinv, hrnodes, hrsize, hrcnt, h6, h7, h8⟩ := closeness_spec g hg
  have hempty : r.adjOf v = [] := by
    rw [List.eq_nil_iff_forall_not_mem]
    intro u hu
    have hpos : 0 < (r.adjOf v).count u := List.count_pos_iff.mpr hu
    rw [hrcnt u v] at hpos
    have hvmem : v ∈ g.adjOf u := List.count_pos_iff.mp hpos
    unfold Graph.adjOf at hvmem
    rcases halo : alookup u g.adjacency_dict with _ | l
    · rw [halo] at hvmem
      simp at hvmem
    · rw [halo] at hvmem
      simp at hvmem
      exact hno (u, l) (alookup_mem halo) hvmem
  have hlookv : alookup v r.adjacency_dict = some [] := by
    obtain ⟨l, hl⟩ := invariant_lookup hrinv (by rw [hrnodes]; exact hv)
    have hadj : r.adjOf v = l := adjOf_eq_of_lookup hl
    rw [hl]
    rw [hempty] at hadj
    rw [← hadj]
  have hsp : r.shortest_paths v = some [(v, 0)] := shortest_paths_no_out hlookv
  obtain ⟨D, hD, hmem, huniq⟩ := h8 v hv
  rw [hsp] at hD
  injection hD with hD
  have hscore : closenessOf g.size [(v, 0)] = F.fin 0 := by
    simp [closenessOf, dsum]
  refine ⟨r, L, h1, h6, hsp, ?_⟩
  rw [← hD] at hmem
  rw [hscore] at hmem
  exact hmem

/-- Witness for the amended C2 at `G2` and its node `c` (no incoming arcs). -/
theorem c2_witness :
    (G2.invariant ∧ "c" ∈ G2.nodes ∧ ∀ p ∈ G2.adjacency_dict, "c" ∉ p.2) ∧
    ∃ r L, G2.reverse = some r ∧ G2.closeness_centrality = some L ∧
      r.shortest_paths "c" = some [("c", 0)] ∧ ("c", F.fin 0) ∈ L :=
  ⟨⟨by decide, by decide, by decide⟩,
    c2_closeness_uses_reverse G2 "c" (by decide) (by decide) (by decide)⟩

/-- C4 counterexample: on the one-node graph the code computes
`0.0 / 0.0 = NaN` for the node's score, not 0 — the result is defined (no
crash) but the score is `NaN`. -/
theorem c4_counterexample :
    Gsingle.invariant ∧ Gsingle.size = 1 ∧
    Gsingle.out_degree_centrality = [("a", F.nan)] ∧
    Gsingle.in_degree_centrality = some [("a", F.nan)] ∧
    ¬ ∀ p ∈ Gsingle.out_degree_centrality, p.2 = F.fin 0 := by
  refine ⟨by decide, rfl, by decide, by decide, ?_⟩
  intro hall
  exact absurd (hall ("a", F.nan) (by decide)) (by decide)

/-- C4 amended: for every invariant graph, both degree centralities return a
defined result with every node appearing exactly once, with score
`d / (N - 1)` as IEEE `f32` division (`NaN` or `∞` when `N ≤ 1`, since the
`usize` difference `N - 1` is then 0); for `N > 1` each score is exactly the
rational `d / (N - 1)`.  For `N = 0` both results are empty. -/
theorem c4_degree_centrality_defined (g : Graph) (hg : g.invariant) :
    ((g.out_degree_centrality.map Prod.fst).Perm g.nodes ∧
      ∀ p ∈ g.out_degree_centrality, p.2 = centScore g.size (g.adjOf p.1).length) ∧
    (∃ r L, g.reverse = some r ∧ g.in_degree_centrality = some L ∧
      (L.map Prod.fst).Perm g.nodes ∧
      ∀ p ∈ L, p.2 = centScore g.size (r.adjOf p.1).length) ∧
    (1 < g.size → ∀ p ∈ g.out_degree_centrality,
      p.2 = F.fin (((g.adjOf p.1).length : ℚ) / ((g.size : ℚ) - 1))) := by
  obtain ⟨ho1, ho2, ho3⟩ := out_degree_spec g hg
  refine ⟨⟨ho1, ho2⟩, ?_, ?_⟩
  · obtain ⟨r, h1, hsize, hnodes, hkeys, hcnt, hrinv⟩ := reverse_spec g hg
    have heq := in_degree_eq h1 hsize
    obtain ⟨hr1, hr2, hr3⟩ := out_degree_spec r hrinv
    refine ⟨r, r.out_degree_centrality, h1, heq, by rw [← hnodes]; exact hr1, ?_⟩
    intro p hp
    rw [hr2 p hp, hsize]
  · intro hN p hp
    rw [ho2 p hp, centScore_of_lt hN]

/-- Witness for the amended C4 at the concrete graph `G2`. -/
theorem c4_witness : G2.invariant ∧
    (((G2.out_degree_centrality.map Prod.fst).Perm G2.nodes ∧
      ∀ p ∈ G2.out_degree_centrality, p.2 = centScore G2.size (G2.adjOf p.1).length) ∧
    (∃ r L, G2.reverse = some r ∧ G2.in_degree_centrality = some L ∧
      (L.map Prod.fst).Perm G2.nodes ∧
      ∀ p ∈ L, p.2 = centScore G2.size (r.adjOf p.1).length) ∧
    (1 < G2.size → ∀ p ∈ G2.out_degree_centrality,
      p.2 = F.fin (((G2.adjOf p.1).length : ℚ) / ((G2.size : ℚ) - 1)))) :=
  ⟨by decide, c4_degree_centrality_defined G2 (by decide)⟩

/-- C5 counterexample: running `shortest_paths` on `G5` from `c`, the third
pop removes `("b", 2)` while `("x", 1)` — strictly smaller tentative
distance — is still in the queue: the heap orders `(String, usize)` pairs
lexicographically by name first, not by distance. -/
theorem c5_counterexample :
    G5.invariant ∧ "c" ∈ G5.nodes ∧
    spTrace G5 "c" = some
      [(("c", 0), [("c", 0)]), (("a", 1), [("a", 1), ("x", 1)]),
       (("b", 2), [("x", 1), ("b", 2)]), (("x", 1), [("x", 1)])] ∧
    ¬ popsByDistance
      [(("c", 0), [("c", 0)]), (("a", 1), [("a", 1), ("x", 1)]),
       (("b", 2), [("x", 1), ("b", 2)]), (("x", 1), [("x", 1)])] :=
  ⟨by decide, by decide, trace_G5, by unfold popsByDistance; decide⟩

/-- C5 amended: every pop during `shortest_paths` removes an entry that is
minimal in the lexicographic `(name, distance)` order on `(String, usize)`
pairs (the order `BinaryHeap<Reverse<(String, usize)>>` actually uses), not
necessarily one of minimal distance. -/
theorem c5_pop_lex_minimal (g : Graph) (s : String)
    (tr : List ((String × Nat) × List (String × Nat))) (h : spTrace g s = some tr) :
    popsLexMinimal tr :=
  spTrace_lexmin h

/-- Witness for the amended C5 on the `G5` trace. -/
theorem c5_witness :
    spTrace G5 "c" = some
      [(("c", 0), [("c", 0)]), (("a", 1), [("a", 1), ("x", 1)]),
       (("b", 2), [("x", 1), ("b", 2)]), (("x", 1), [("x", 1)])] ∧
    popsLexMinimal
      [(("c", 0), [("c", 0)]), (("a", 1), [("a", 1), ("x", 1)]),
       (("b", 2), [("x", 1), ("b", 2)]), (("x", 1), [("x", 1)])] :=
  ⟨trace_G5, c5_pop_lex_minimal G5 "c" _ trace_G5⟩
